import Mathlib

/-!
A shallow embedding of the `cspy` constraint-satisfaction library
(`cspy/__init__.py` and `cspy/solver.py`) and proofs about its solver.

Modelling conventions:
* Python variable values are modelled as integers (`Val := Int`); an
  unassigned variable (`value is None`) is `Option.none`.
* A `Variable`'s mutable attributes (`value`, `domain`) are part of a
  `Store` (the list of variables of a problem); in-place mutation of a
  variable object becomes replacement of the record with that name.
* Exceptions (`KeyError` from `var_dict` lookups, `ValueError` from
  `max`/`min` over empty collections, `IndexError` from `random.choice`
  on an empty sequence) are modelled with `Except`.
* The global `random` source is modelled as an explicit stream of
  naturals (`Rng`); `random.choice(seq)` consumes one element of the
  stream and indexes `seq` by it modulo the length.
* `copy.deepcopy` of a problem produces an isomorphic object graph that
  shares nothing with the original; on pure values this is the identity,
  and the engines below thread only the copy, never the original.
* Python's recursion is bounded by the interpreter's recursion limit;
  the recursive backtracking search takes explicit fuel (one unit per
  nesting level, `number of variables + 1` at the top level) and reports
  exhaustion as the distinguished error `Err.fuel`, which is never hit
  on the runs analysed here.
-/

namespace CSPy

/-- Python values stored in domains and assignments. -/
abbrev Val := Int

/-- The random source: a stream of naturals consumed by `random.choice`. -/
abbrev Rng := List Nat

/-- `cspy.Variable` (cspy/__init__.py, lines 15-24): a name, a live
domain, the immutable `init_domain` snapshot, and an optional value. -/
structure Variable where
  name : String
  domain : List Val
  init_domain : List Val
  value : Option Val
deriving DecidableEq, Repr

/-- `cspy.Constraint` (cspy/__init__.py, lines 97-115): an ordered tuple
of variable names and a predicate over the variables bearing those names
(passed positionally, in the order of `var_names`). -/
structure Constraint where
  var_names : List String
  satisfied : List Variable → Bool

/-- `cspy.CSP` (cspy/__init__.py, lines 118-127): an ordered variable
list and an ordered constraint list.  The `var_dict` index is derived
(`lookupVar`); the objective function is never consulted by the solver
and is omitted. -/
structure CSP where
  var_list : List Variable
  constraints : List Constraint

/-- The mutable search state: the variable objects of one problem copy. -/
abbrev Store := List Variable

/-- Exceptions that can escape the engines. -/
inductive Err where
  /-- `KeyError` from a name lookup in `var_dict` or a local assignment dict. -/
  | keyError (n : String)
  /-- `ValueError` from `max()` or `min()` on an empty sequence. -/
  | valueError
  /-- `IndexError` from `random.choice` on an empty sequence. -/
  | indexError
  /-- `RecursionError`: the fuel modelling Python's recursion limit ran out. -/
  | fuel
deriving DecidableEq, Repr

/-- Exceptions observable at the `Solver.solve` boundary.  `solve`
(solver.py, lines 30-39) converts any `KeyError` into
`NotImplementedError('algorithm %r not supported!')`; every other
exception propagates unchanged. -/
inductive SolverError where
  | notImplemented (alg : String)
  | valueError
  | indexError
  | fuel
deriving DecidableEq, Repr

/-- A solution snapshot `{var.name: var.value for var in var_list}`. -/
abbrev Asgn := List (String × Option Val)

/-- The result shape of an engine run: the first solution (or `none`)
when `take_first` holds, otherwise the list of all recorded solutions. -/
inductive Outcome where
  | first (sol : Option Asgn)
  | all (sols : List Asgn)
deriving DecidableEq, Repr

/-- Name lookup in the store: `csp.var_dict[name]`, with `none` standing
for the `KeyError` branch handled at each call site. -/
def lookupVar (st : Store) (n : String) : Option Variable :=
  st.find? (fun v => v.name = n)

/-- Total variant of `lookupVar` for call sites where the variable is
guaranteed present (Python holds a direct object reference there). -/
def getVar (st : Store) (n : String) : Variable :=
  (lookupVar st n).getD ⟨n, [], [], none⟩

/-- In-place mutation of the variable object named `v.name`: every
occurrence of that name in the store is replaced by `v`. -/
def updateVar (st : Store) (v : Variable) : Store :=
  st.map (fun w => if w.name = v.name then v else w)

/-- The per-variable effect of `Solver.make_assignment` (solver.py,
lines 146-152): set `var.value = value`, and `var.domain = {value}` when
the new value is not `None`, else the supplied domain. -/
def assignStep (v : Variable) (value : Option Val) (dom : List Val) : Variable :=
  { v with
    value := value
    domain := match value with
      | some x => [x]
      | none => dom }

/-- The undo record returned by `Solver.make_assignment`: the modified
variables (by name), their previous values and previous domains. -/
structure Undo where
  names : List String
  values : List (Option Val)
  domains : List (List Val)
deriving DecidableEq, Repr

/-- The loop of `Solver.make_assignment` (solver.py, lines 146-153) over
the zipped `(var, value, domain)` triples: variables whose value already
equals the new value are skipped and not recorded. -/
def make_assignment_go (st : Store) : List (String × Option Val × List Val) → Store × Undo
  | [] => (st, ⟨[], [], []⟩)
  | (n, v, d) :: rest =>
    match lookupVar st n with
    | none => make_assignment_go st rest
    | some w =>
      if w.value = v then make_assignment_go st rest
      else
        ((make_assignment_go (updateVar st (assignStep w v d)) rest).1,
         ⟨w.name :: (make_assignment_go (updateVar st (assignStep w v d)) rest).2.names,
          w.value :: (make_assignment_go (updateVar st (assignStep w v d)) rest).2.values,
          w.domain :: (make_assignment_go (updateVar st (assignStep w v d)) rest).2.domains⟩)

/-- `Solver.make_assignment` (solver.py, lines 138-153).  When no domain
list is supplied it defaults to the variables' current domains,
snapshotted before any mutation. -/
def make_assignment (st : Store) (names : List String) (values : List (Option Val))
    (domains : Option (List (List Val))) : Store × Undo :=
  let doms := domains.getD (names.map (fun n => (getVar st n).domain))
  make_assignment_go st (names.zip (values.zip doms))

/-!
### Value ordering (`Solver.order_domain`, solver.py lines 91-136)

`order_domain(var, csp)` scores each candidate value of `var` by the
number of values its adoption would prune from other variables' domains,
simulating on a deep copy of the *other* variables while hypothetically
binding the *original* `var` object, then returns the domain sorted
ascending by that score.

The simulation state is a local store `pst` holding the persistent `var`
record together with the deep copies (`_other_vars`); all
`make_assignment` calls of the simulation act on `pst`, and the final
state of `var` is read back out of it (the only leak into the engine's
persistent state the code can make).
-/

/-- Build `arg_list = [assignment[name] for name in constraint.var_names]`
(solver.py, lines 120-122 and 128): the local assignment dict contains
exactly `var` and the copies named by `relNames`; any other referenced
name raises `KeyError`. -/
def constraintArgs (pst : Store) (varName : String) (relNames : List String) :
    List String → Except Err (List Variable)
  | [] => .ok []
  | n :: rest =>
    if n = varName ∨ n ∈ relNames then
      match lookupVar pst n with
      | some v =>
        match constraintArgs pst varName relNames rest with
        | .ok args => .ok (v :: args)
        | .error e => .error e
      | none => .error (.keyError n)
    else .error (.keyError n)

/-- `itertools.product` over the remaining variables' domains
(solver.py, line 118). -/
def cartProd : List (List Val) → List (List Val)
  | [] => [[]]
  | d :: ds => d.flatMap (fun x => (cartProd ds).map (fun t => x :: t))

/-- The `remaining_values` loop (solver.py, lines 118-127): try each
combination of the remaining variables' domains, undoing the hypothetical
binding after each test, and stop at the first satisfying combination. -/
def tryCombos (varName : String) (relNames : List String) (c : Constraint)
    (remNames : List String) (pst : Store) :
    List (List Val) → Except Err (Bool × Store)
  | [] => .ok (false, pst)
  | combo :: rest =>
    let p := make_assignment pst remNames (combo.map some) none
    match constraintArgs p.1 varName relNames c.var_names with
    | .error e => .error e
    | .ok args =>
      let valid := c.satisfied args
      let q := make_assignment p.1 p.2.names p.2.values (some p.2.domains)
      if valid then .ok (true, q.1)
      else tryCombos varName relNames c remNames q.1 rest

/-- The body of the `other_value` loop (solver.py, lines 109-132):
hypothetically bind `var := value, other_var := other_value`, decide
whether some completion of the remaining constraint participants
satisfies the constraint, then undo the partial binding. -/
def checkOtherValue (varName : String) (value : Val) (relNames : List String)
    (c : Constraint) (n : String) (other_value : Val) (pst : Store) :
    Except Err (Bool × Store) :=
  let p := make_assignment pst [varName, n] [some value, some other_value] none
  let remNames := relNames.filter (fun m => m ≠ n)
  if remNames.isEmpty then
    match constraintArgs p.1 varName relNames c.var_names with
    | .error e => .error e
    | .ok args =>
      let valid := c.satisfied args
      let q := make_assignment p.1 p.2.names p.2.values (some p.2.domains)
      .ok (valid, q.1)
  else
    let combos := cartProd (remNames.map (fun m => (getVar p.1 m).domain))
    match tryCombos varName relNames c remNames p.1 combos with
    | .error e => .error e
    | .ok r =>
      let q := make_assignment r.2 p.2.names p.2.values (some p.2.domains)
      .ok (r.1, q.1)

/-- The `other_value` loop of `_num_pruned` (solver.py, lines 108-132),
accumulating the values found invalid for the copy named `n`. -/
def collectInvalid (varName : String) (value : Val) (relNames : List String)
    (c : Constraint) (n : String) (invalid : List Val) (pst : Store) :
    List Val → Except Err (List Val × Store)
  | [] => .ok (invalid, pst)
  | ov :: rest =>
    match checkOtherValue varName value relNames c n ov pst with
    | .error e => .error e
    | .ok r =>
      let invalid' := if r.1 then invalid else invalid ++ [ov]
      collectInvalid varName value relNames c n invalid' r.2 rest

/-- The body of the `other_var` loop (solver.py, lines 107-133): find the
invalid values of the copy named `n` and prune them from its domain. -/
def checkOtherVar (varName : String) (value : Val) (relNames : List String)
    (c : Constraint) (pst : Store) (n : String) : Except Err Store :=
  let ov := getVar pst n
  match collectInvalid varName value relNames c n [] pst ov.domain with
  | .error e => .error e
  | .ok r =>
    let ovCur := getVar r.2 n
    .ok (updateVar r.2 { ovCur with domain := ovCur.domain.filter (fun x => x ∉ r.1) })

/-- The `other_var` loop over the copies involved in one constraint. -/
def checkOtherVars (varName : String) (value : Val) (relNames : List String)
    (c : Constraint) (pst : Store) : List String → Except Err Store
  | [] => .ok pst
  | n :: rest =>
    match checkOtherVar varName value relNames c pst n with
    | .error e => .error e
    | .ok pst' => checkOtherVars varName value relNames c pst' rest

/-- The body of the constraint loop of `_num_pruned` (solver.py, lines
103-133): constraints not mentioning `var` are skipped; otherwise the
copies mentioned by the constraint (`__other_vars`) are processed. -/
def checkConstraint (varName : String) (value : Val) (pst : Store)
    (c : Constraint) : Except Err Store :=
  if varName ∈ c.var_names then
    let relNames := ((pst.filter (fun v => v.name ≠ varName && v.name ∈ c.var_names)).map
      (fun v => v.name))
    checkOtherVars varName value relNames c pst relNames
  else .ok pst

/-- The constraint loop of `_num_pruned`. -/
def checkConstraints (varName : String) (value : Val) (pst : Store) :
    List Constraint → Except Err Store
  | [] => .ok pst
  | c :: rest =>
    match checkConstraint varName value pst c with
    | .error e => .error e
    | .ok pst' => checkConstraints varName value pst' rest

/-- `_num_pruned(value)` (solver.py, lines 97-134): the total number of
values pruned from the deep copies of the other variables if `var` took
`value`, together with the final state of the persistent `var` record
(whose mutations survive the call). -/
def num_pruned (var : Variable) (others : List Variable) (cs : List Constraint)
    (value : Val) : Except Err (Int × Variable) :=
  let init_total : Int := ((others.map (fun v => v.domain.length)).sum : Nat)
  let pst0 : Store := var :: others
  match checkConstraints var.name value pst0 cs with
  | .error e => .error e
  | .ok pst =>
    let final : Int :=
      (((pst.filter (fun v => v.name ≠ var.name)).map (fun v => v.domain.length)).sum : Nat)
    .ok (init_total - final, getVar pst var.name)

/-- The decoration pass of `sorted(list(var.domain), key=_num_pruned)`:
evaluate the key once per candidate, in list order, threading the
persistent `var` record through the evaluations. -/
def orderKeys (others : List Variable) (cs : List Constraint) (var : Variable)
    (pairs : List (Val × Int)) : List Val → Except Err (List (Val × Int) × Variable)
  | [] => .ok (pairs, var)
  | v :: rest =>
    match num_pruned var others cs v with
    | .error e => .error e
    | .ok r => orderKeys others cs r.2 (pairs ++ [(v, r.1)]) rest

/-- `Solver.order_domain` (solver.py, lines 91-136): the domain sorted
ascending (stably) by the pruning score, together with the state of the
`var` object after all key evaluations. -/
def order_domain (var : Variable) (st : Store) (cs : List Constraint) :
    Except Err (List Val × Variable) :=
  let others := st.filter (fun v => v.name ≠ var.name)
  match orderKeys others cs var [] var.domain with
  | .error e => .error e
  | .ok r =>
    .ok ((r.1.insertionSort (fun p q => p.2 ≤ q.2)).map (fun p => p.1), r.2)

/-- The sorted-domain component of an `order_domain` run (empty on an
error), used to describe the precomputed value-order table. -/
def sortedOf (cs : List Constraint) (st : Store) (n : String) : List Val :=
  match order_domain (getVar st n) st cs with
  | .ok r => r.1
  | .error _ => []

/-!
### Backtracking search (`Solver.backtracking`, solver.py lines 45-199)
-/

/-- `Solver.select_unassigned_var` (solver.py, lines 86-89):
`min([var for var in var_list if var.value is None], key=len(domain))`.
Python's `min` keeps the first element achieving the minimum; an empty
candidate list raises `ValueError`, modelled as `none` here and turned
into `Err.valueError` at the call site. -/
def select_unassigned_var (vl : List Variable) : Option Variable :=
  match vl.filter (fun v => v.value = none) with
  | [] => none
  | v :: vs =>
    some (vs.foldl (fun acc w => if w.domain.length < acc.domain.length then w else acc) v)

/-- Look every constraint participant up in `var_dict`
(`[csp.var_dict[name] for name in constraint.var_names]`), raising
`KeyError` on the first unregistered name. -/
def dictArgs (st : Store) : List String → Except Err (List Variable)
  | [] => .ok []
  | n :: rest =>
    match lookupVar st n with
    | some v =>
      match dictArgs st rest with
      | .ok args => .ok (v :: args)
      | .error e => .error e
    | none => .error (.keyError n)

/-- `Solver.consistent` (solver.py, lines 187-199): check every
constraint mentioning `varName`; a constraint with an unassigned
participant is skipped (the `None in arg_list` test, which via
`Variable.__eq__` means "some participant's value is None"). -/
def consistent (varName : String) (st : Store) : List Constraint → Except Err Bool
  | [] => .ok true
  | c :: rest =>
    if varName ∈ c.var_names then
      match dictArgs st c.var_names with
      | .error e => .error e
      | .ok args =>
        if args.any (fun v => v.value = none) then consistent varName st rest
        else if c.satisfied args then consistent varName st rest
        else .ok false
    else consistent varName st rest

/-- The inner loop of `Solver.forward_check` (solver.py, lines 171-178):
test each candidate value of the single unassigned participant by
hypothetical binding, then prune the values that falsify the
constraint. -/
def pruneValues (c : Constraint) (uName : String) (invalid : List Val) (st : Store) :
    List Val → Except Err (List Val × Store)
  | [] => .ok (invalid, st)
  | v :: rest =>
    let p := make_assignment st [uName] [some v] none
    match dictArgs p.1 c.var_names with
    | .error e => .error e
    | .ok args =>
      let invalid' := if c.satisfied args then invalid else invalid ++ [v]
      let q := make_assignment p.1 p.2.names p.2.values (some p.2.domains)
      pruneValues c uName invalid' q.1 rest

/-- The body of the constraint loop of `Solver.forward_check` (solver.py,
lines 166-178): when exactly one participant is unassigned, prune its
domain. -/
def forwardCheckConstraint (st : Store) (c : Constraint) : Except Err Store :=
  match dictArgs st c.var_names with
  | .error e => .error e
  | .ok args =>
    match args.filter (fun v => v.value = none) with
    | [u] =>
      match pruneValues c u.name [] st u.domain with
      | .error e => .error e
      | .ok r =>
        let uCur := getVar r.2 u.name
        .ok (updateVar r.2 { uCur with domain := uCur.domain.filter (fun x => x ∉ r.1) })
    | _ => .ok st

/-- The constraint loop of `Solver.forward_check` for one newly assigned
variable (`csp.get_constraints_with(var)`). -/
def forwardCheckVar (varName : String) (st : Store) : List Constraint → Except Err Store
  | [] => .ok st
  | c :: rest =>
    if varName ∈ c.var_names then
      match forwardCheckConstraint st c with
      | .error e => .error e
      | .ok st' => forwardCheckVar varName st' rest
    else forwardCheckVar varName st rest

/-- `Solver.forward_check` (solver.py, lines 155-179) for a single newly
assigned variable, returning the pruned store together with the
`orig_domains` snapshot taken before pruning. -/
def forward_check (varName : String) (st : Store) (cs : List Constraint) :
    Except Err (Store × List (String × List Val)) :=
  let orig_domains := st.map (fun v => (v.name, v.domain))
  match forwardCheckVar varName st cs with
  | .error e => .error e
  | .ok st' => .ok (st', orig_domains)

/-- `Solver.restore_domains` (solver.py, lines 181-185). -/
def restore_domains (domains : List (String × List Val)) (st : Store) : Store :=
  domains.foldl (fun st p =>
    let v := getVar st p.1
    updateVar st { v with domain := p.2 }) st

/-- The `next_value` loop of `_recursive_backtracking` (solver.py, lines
71-81), parameterised by the recursive call `recur` (the next nesting
level of the search).  Values no longer in the variable's current domain
are skipped; a consistent assignment is forward-checked and recursed on;
on return (unless a `take_first` success propagates) the domain pruning
and the assignment are undone and the next value is tried. -/
def try_values (recur : Store → List Asgn → Except Err (Option Asgn × Store × List Asgn))
    (cs : List Constraint) (takeFirst : Bool) (varName : String) (st : Store)
    (sols : List Asgn) : List Val → Except Err (Option Asgn × Store × List Asgn)
  | [] => .ok (none, st, sols)
  | v :: rest =>
    if v ∈ (getVar st varName).domain then
      let p := make_assignment st [varName] [some v] none
      match consistent varName p.1 cs with
      | .error e => .error e
      | .ok true =>
        match forward_check varName p.1 cs with
        | .error e => .error e
        | .ok fc =>
          match recur fc.1 sols with
          | .error e => .error e
          | .ok r =>
            match r.1, takeFirst with
            | some sol, true => .ok (some sol, r.2.1, r.2.2)
            | _, _ =>
              let st4 := restore_domains fc.2 r.2.1
              let q := make_assignment st4 p.2.names p.2.values (some p.2.domains)
              try_values recur cs takeFirst varName q.1 r.2.2 rest
      | .ok false =>
        let q := make_assignment p.1 p.2.names p.2.values (some p.2.domains)
        try_values recur cs takeFirst varName q.1 sols rest
    else try_values recur cs takeFirst varName st sols rest

/-- `_recursive_backtracking` (solver.py, lines 59-81).  `fuel` models
Python's recursion limit: each nesting level consumes one unit; the
search assigns one variable per level, so `number of variables + 1`
levels suffice. -/
def recursive_backtracking (cs : List Constraint)
    (domainsMap : List (String × List Val)) (takeFirst : Bool) :
    Nat → Store → List Asgn → Except Err (Option Asgn × Store × List Asgn)
  | 0, _, _ => .error .fuel
  | fuel + 1, st, sols =>
    if st.all (fun v => v.value.isSome) then
      let sol : Asgn := st.map (fun v => (v.name, v.value))
      .ok (some sol, st, sols ++ [sol])
    else
      match select_unassigned_var st with
      | none => .error .valueError
      | some nv =>
        match (domainsMap.find? (fun p => p.1 = nv.name)).map (fun p => p.2) with
        | none => .error (.keyError nv.name)
        | some ordered =>
          try_values (recursive_backtracking cs domainsMap takeFirst fuel)
            cs takeFirst nv.name st sols ordered

/-- The domain-ordering phase of `Solver.backtracking` (solver.py, lines
54-56): order every variable's domain once up front, threading the store
(each `order_domain` call can mutate the variable it orders). -/
def orderPhase (cs : List Constraint) (st : Store)
    (acc : List (String × List Val)) :
    List String → Except Err (List (String × List Val) × Store)
  | [] => .ok (acc, st)
  | n :: rest =>
    match order_domain (getVar st n) st cs with
    | .error e => .error e
    | .ok r => orderPhase cs (updateVar st r.2) (acc ++ [(n, r.1)]) rest

/-- `Solver.backtracking` (solver.py, lines 45-84): deep-copy the
problem, precompute the value orders, run the recursive search, and
return the first solution (`take_first`) or the list of all recorded
solutions. -/
def backtracking (csp : CSP) (takeFirst : Bool) : Except Err Outcome :=
  let st := csp.var_list
  match orderPhase csp.constraints st [] (st.map (fun v => v.name)) with
  | .error e => .error e
  | .ok p =>
    match recursive_backtracking csp.constraints p.1 takeFirst (p.2.length + 1) p.2 [] with
    | .error e => .error e
    | .ok r => .ok (if takeFirst then .first r.1 else .all r.2.2)

/-!
### Min-conflicts local search (`Solver.min_conflicts`, solver.py lines 205-291)
-/

/-- `random.choice(seq)`: raises `IndexError` on an empty sequence,
otherwise consumes one element of the random stream and picks the entry
it indexes (modulo the length). -/
def randChoice {α : Type} (l : List α) (rng : Rng) : Except Err (α × Rng) :=
  match l with
  | [] => .error .indexError
  | a :: as => .ok ((a :: as).getD ((rng.headD 0) % (a :: as).length) a, rng.tail)

/-- `Solver.make_random_assignment` (solver.py, lines 230-242): give
every variable, in declared order, a random value from its domain; in
uniqueness mode prefer values not chosen earlier in this pass, falling
back to the whole domain when none remain. -/
def make_random_assignment (uniq : Bool) (st : Store) (chosen : List Val)
    (rng : Rng) : List String → Except Err (Store × Rng)
  | [] => .ok (st, rng)
  | n :: rest =>
    let var := getVar st n
    let choices := if uniq then var.domain.filter (fun v => v ∉ chosen) else var.domain
    let choices := if choices.isEmpty then var.domain else choices
    match randChoice choices rng with
    | .error e => .error e
    | .ok r =>
      let p := make_assignment st [n] [some r.1] none
      make_random_assignment uniq p.1 (chosen ++ [r.1]) r.2 rest

/-- The constraint scan of `CSP.solved` (cspy/__init__.py, lines
189-191). -/
def allSatisfied (st : Store) : List Constraint → Except Err Bool
  | [] => .ok true
  | c :: rest =>
    match dictArgs st c.var_names with
    | .error e => .error e
    | .ok args =>
      if c.satisfied args then allSatisfied st rest else .ok false

/-- `CSP.solved` (cspy/__init__.py, lines 183-192). -/
def solvedCheck (st : Store) (cs : List Constraint) : Except Err Bool :=
  if st.all (fun v => v.value.isSome) then allSatisfied st cs else .ok false

/-- Increment a name's tally in the `defaultdict(int)` conflict counter,
preserving first-insertion order. -/
def bumpName (m : List (String × Nat)) (n : String) : List (String × Nat) :=
  if (m.find? (fun p => p.1 = n)).isSome then
    m.map (fun p => if p.1 = n then (p.1, p.2 + 1) else p)
  else m ++ [(n, 1)]

/-- The counting loop of `Solver.select_most_conflicting_var` (solver.py,
lines 249-253): every participant of every violated constraint gets one
tally per violation. -/
def conflictNames (st : Store) (m : List (String × Nat)) :
    List Constraint → Except Err (List (String × Nat))
  | [] => .ok m
  | c :: rest =>
    match dictArgs st c.var_names with
    | .error e => .error e
    | .ok args =>
      let m' := if c.satisfied args then m else c.var_names.foldl bumpName m
      conflictNames st m' rest

/-- `Solver.select_most_conflicting_var` (solver.py, lines 244-256):
`max` over an empty tally dict raises `ValueError` (this happens exactly
when no constraint is violated). -/
def select_most_conflicting_var (st : Store) (cs : List Constraint) (rng : Rng) :
    Except Err (Variable × Rng) :=
  match conflictNames st [] cs with
  | .error e => .error e
  | .ok m =>
    match m with
    | [] => .error .valueError
    | p :: rest =>
      let mc := rest.foldl (fun a q => Nat.max a q.2) p.2
      match randChoice (((p :: rest).filter (fun q => q.2 = mc)).map (fun q => q.1)) rng with
      | .error e => .error e
      | .ok r =>
        match lookupVar st r.1 with
        | some v => .ok (v, r.2)
        | none => .error (.keyError r.1)

/-- `_assign_unique_value` (solver.py, lines 263-268): reassign the
displaced variable to a random value of its initial domain not currently
held by any variable, or of the whole initial domain when none remain. -/
def assign_unique_value (wName : String) (st : Store) (rng : Rng) :
    Except Err (Store × Undo × Rng) :=
  let w := getVar st wName
  let used := st.filterMap (fun v => v.value)
  let od := w.init_domain.filter (fun x => x ∉ used)
  let od := if od.isEmpty then w.init_domain else od
  match randChoice od rng with
  | .error e => .error e
  | .ok r =>
    let p := make_assignment st [wName] [some r.1] none
    .ok (p.1, p.2, r.2)

/-- `CSP.num_constraints_violated` (cspy/__init__.py, lines 194-195),
also the counting step of `assign_least_conflicting_value` (solver.py,
lines 278-281). -/
def num_constraints_violated (st : Store) : List Constraint → Except Err Nat
  | [] => .ok 0
  | c :: rest =>
    match dictArgs st c.var_names with
    | .error e => .error e
    | .ok args =>
      match num_constraints_violated st rest with
      | .error e => .error e
      | .ok k => .ok (if c.satisfied args then k else k + 1)

/-- Store a value's final tally in the `conflict_count` dict (overwrite
semantics, first-insertion position preserved). -/
def putCount (cc : List (Val × Nat)) (v : Val) (k : Nat) : List (Val × Nat) :=
  if (cc.find? (fun p => p.1 = v)).isSome then
    cc.map (fun p => if p.1 = v then (p.1, k) else p)
  else cc ++ [(v, k)]

/-- One iteration of the measurement loop of
`Solver.assign_least_conflicting_value` (solver.py, lines 271-283):
hypothetically bind `var := value`; when uniqueness mode is on and some
variable currently holds `value` (searched *before* the binding, line
272 — note the generator there shadows `var`, so the holder can be `var`
itself), also displace that holder; count the violated constraints; then
undo the displacement (only — the binding of `var` is reset after the
whole loop, line 284).  Returns the count with the resulting state and
random source. -/
def conflict_step (varName : String) (cs : List Constraint) (uniq : Bool)
    (st : Store) (rng : Rng) (value : Val) : Except Err (Nat × Store × Rng) :=
  match st.find? (fun v => v.value = some value) with
  | some w =>
    if uniq then
      match assign_unique_value w.name
          (make_assignment st [varName] [some value] none).1 rng with
      | .error e => .error e
      | .ok s =>
        match num_constraints_violated s.1 cs with
        | .error e => .error e
        | .ok cnt =>
          .ok (cnt,
            (make_assignment s.1 s.2.1.names s.2.1.values (some s.2.1.domains)).1,
            s.2.2)
    else
      match num_constraints_violated (make_assignment st [varName] [some value] none).1 cs with
      | .error e => .error e
      | .ok cnt => .ok (cnt, (make_assignment st [varName] [some value] none).1, rng)
  | none =>
    match num_constraints_violated (make_assignment st [varName] [some value] none).1 cs with
    | .error e => .error e
    | .ok cnt => .ok (cnt, (make_assignment st [varName] [some value] none).1, rng)

/-- The measurement loop of `Solver.assign_least_conflicting_value`
(solver.py, lines 270-283), accumulating the `conflict_count` dict over
the values of `var.init_domain`. -/
def conflict_table (varName : String) (cs : List Constraint) (uniq : Bool)
    (cc : List (Val × Nat)) (st : Store) (rng : Rng) :
    List Val → Except Err (List (Val × Nat) × Store × Rng)
  | [] => .ok (cc, st, rng)
  | value :: rest =>
    match conflict_step varName cs uniq st rng value with
    | .error e => .error e
    | .ok r =>
      conflict_table varName cs uniq (putCount cc value r.1) r.2.1 r.2.2 rest

/-- `Solver.assign_least_conflicting_value` (solver.py, lines 258-291):
measure every value of the initial domain, restore the original value,
pick a minimum-conflict value at random, commit it, and in uniqueness
mode displace the variable that already held it (found *before* the
commit, so when the chosen value equals the original value the displaced
variable can be `var` itself). -/
def assign_least_conflicting_value (varName : String) (st : Store)
    (cs : List Constraint) (uniq : Bool) (rng : Rng) :
    Except Err (Val × Store × Rng) :=
  let orig := (getVar st varName).value
  match conflict_table varName cs uniq [] st rng (getVar st varName).init_domain with
  | .error e => .error e
  | .ok t =>
    let st2 := (make_assignment t.2.1 [varName] [orig] none).1
    match t.1 with
    | [] => .error .valueError
    | p :: rest =>
      let lcCount := rest.foldl (fun a q => Nat.min a q.2) p.2
      match randChoice (((p :: rest).filter (fun q => q.2 = lcCount)).map (fun q => q.1))
          t.2.2 with
      | .error e => .error e
      | .ok r =>
        let lc := r.1
        let otherW := st2.find? (fun v => v.value = some lc)
        let st3 := (make_assignment st2 [varName] [some lc] none).1
        match otherW with
        | some w =>
          if uniq then
            match assign_unique_value w.name st3 r.2 with
            | .error e => .error e
            | .ok s => .ok (lc, s.1, s.2.2)
          else .ok (lc, st3, r.2)
        | none => .ok (lc, st3, r.2)

/-- The repair loop of `Solver.min_conflicts` (solver.py, lines
212-228): `fuel` is the remaining iteration budget (`iter_limit - i`). -/
def min_conflicts_loop (cs : List Constraint) (takeFirst : Bool) (uniq : Bool) :
    Nat → Store → List Asgn → Rng → Except Err Outcome
  | 0, _, sols, _ => .ok (if takeFirst then .first none else .all sols)
  | fuel + 1, st, sols, rng =>
    match solvedCheck st cs with
    | .error e => .error e
    | .ok solvedQ =>
      let sol : Asgn := st.map (fun v => (v.name, v.value))
      if solvedQ ∧ takeFirst then .ok (.first (some sol))
      else
        let sols' := if solvedQ then sols ++ [sol] else sols
        match select_most_conflicting_var st cs rng with
        | .error e => .error e
        | .ok mc =>
          match assign_least_conflicting_value mc.1.name st cs uniq mc.2 with
          | .error e => .error e
          | .ok a => min_conflicts_loop cs takeFirst uniq fuel a.2.1 sols' a.2.2

/-- `Solver.min_conflicts` (solver.py, lines 205-228): deep-copy the
problem, randomly assign every variable, then repair up to `iterLimit`
times. -/
def min_conflicts (csp : CSP) (takeFirst : Bool) (iterLimit : Nat) (uniq : Bool)
    (rng : Rng) : Except Err Outcome :=
  let st := csp.var_list
  match make_random_assignment uniq st [] rng (st.map (fun v => v.name)) with
  | .error e => .error e
  | .ok p => min_conflicts_loop csp.constraints takeFirst uniq iterLimit p.1 [] p.2

/-!
### Problem construction and the solver facade
-/

/-- `CSP.add_constraint` (cspy/__init__.py, lines 140-142): append the
constraint to the registry.  No validation of the referenced variable
names is performed and no error can be raised. -/
def add_constraint (csp : CSP) (c : Constraint) : CSP :=
  { csp with constraints := csp.constraints ++ [c] }

/-- `copy.deepcopy` on a problem: an isomorphic object graph sharing
nothing with the original.  On the pure values of this embedding the
copy is the value itself; what matters is that the engines receive and
mutate only the copy. -/
def deepcopy (csp : CSP) : CSP := csp

/-- The `except KeyError: raise NotImplementedError(...)` clause of
`Solver.solve` (solver.py, lines 36-39): a `KeyError` escaping the
engine call is replaced by the configuration error carrying the
requested algorithm name; every other exception propagates unchanged. -/
def mapEngineError (alg : String) : Err → SolverError
  | .keyError _ => .notImplemented alg
  | .valueError => .valueError
  | .indexError => .indexError
  | .fuel => .fuel

/-- `Solver.solve` (solver.py, lines 30-39) together with the fate of
the original problem: the dispatcher looks the algorithm up (an unknown
name raises the configuration error before any engine state exists),
runs the engine on a deep copy, and the original problem is returned
untouched in the second component. -/
def solveTracked (csp : CSP) (alg : String) (takeFirst : Bool) (rng : Rng) :
    Except SolverError Outcome × CSP :=
  let result : Except SolverError Outcome :=
    if alg = "backtracking" then
      match backtracking (deepcopy csp) takeFirst with
      | .ok o => .ok o
      | .error e => .error (mapEngineError alg e)
    else if alg = "min_conflicts" then
      match min_conflicts (deepcopy csp) takeFirst 1000000000 false rng with
      | .ok o => .ok o
      | .error e => .error (mapEngineError alg e)
    else .error (.notImplemented alg)
  (result, csp)

/-- `CSP.get_solution` (cspy/__init__.py, lines 150-155):
`Solver(self).solve(algorithm=algorithm, take_first=True)`. -/
def get_solution (csp : CSP) (alg : String) (rng : Rng) :
    Except SolverError Outcome × CSP :=
  solveTracked csp alg true rng

/-- `CSP.get_all_solutions` (cspy/__init__.py, lines 157-162):
`Solver(self).solve(algorithm=algorithm, take_first=False)`. -/
def get_all_solutions (csp : CSP) (alg : String) (rng : Rng) :
    Except SolverError Outcome × CSP :=
  solveTracked csp alg false rng

/-!
### Concrete problems used in the claim analyses
-/

/-- A problem with a pre-assigned variable `x` (value 5, live domain
still `[5, 6]`) sharing a constraint with an unassigned `y`. -/
def probC1 : CSP :=
  ⟨[⟨"x", [5, 6], [5, 6], some 5⟩, ⟨"y", [1], [1], none⟩],
   [⟨["x", "y"], fun _ => true⟩]⟩

/-- A trivially satisfiable problem: one variable, one value, no
constraints. -/
def probC3 : CSP := ⟨[⟨"x", [1], [1], none⟩], []⟩

/-- A problem whose single variable has an empty domain. -/
def probC2 : CSP := ⟨[⟨"x", [], [], none⟩], []⟩

/-- A problem with one registered variable and no constraints yet. -/
def probC8 : CSP := ⟨[⟨"x", [1], [1], none⟩], []⟩

/-- A constraint referencing the unregistered name `ghost`. -/
def ghostConstraint : Constraint := ⟨["x", "ghost"], fun _ => true⟩

/-- A well-named problem carrying a constraint that references the
unregistered name `ghost`. -/
def probC10 : CSP := ⟨[⟨"x", [1], [1], none⟩], [⟨["x", "ghost"], fun _ => true⟩]⟩

/-- A single-variable store (initial domain `[1, 2]`, currently holding
`1`) used to exercise the min-conflicts repair step. -/
def storeC4 : Store := [⟨"x", [1], [1, 2], some 1⟩]

/-!
### Helper lemmas
-/

theorem lookupVar_name {st : Store} {n : String} {w : Variable}
    (h : lookupVar st n = some w) : w.name = n := by
  have := List.find?_some h
  simpa using this

theorem lookupVar_mem {st : Store} {n : String} {w : Variable}
    (h : lookupVar st n = some w) : w ∈ st :=
  List.mem_of_find?_eq_some h

theorem lookupVar_isSome_iff {st : Store} {n : String} :
    (lookupVar st n).isSome ↔ n ∈ st.map (fun v => v.name) := by
  induction st with
  | nil => simp [lookupVar]
  | cons v vs ih =>
    by_cases h : v.name = n
    · simp [lookupVar, List.find?_cons_of_pos, h]
    · rw [lookupVar, List.find?_cons_of_neg _ (by simpa using h)]
      simpa [h, Ne.symm h] using ih

theorem mem_name_unique {st : Store} (hnd : (st.map (fun v => v.name)).Nodup)
    {u v : Variable} (hu : u ∈ st) (hv : v ∈ st) (h : u.name = v.name) : u = v := by
  induction st with
  | nil => exact absurd hu (by simp)
  | cons w ws ih =>
    simp only [List.map_cons, List.nodup_cons] at hnd
    rcases List.mem_cons.mp hu with hu' | hu' <;>
      rcases List.mem_cons.mp hv with hv' | hv'
    · rw [hu', hv']
    · have hm : u.name ∈ ws.map (fun x => x.name) := by
        rw [h]; exact List.mem_map_of_mem _ hv'
      rw [hu'] at hm
      exact absurd hm hnd.1
    · have hm : v.name ∈ ws.map (fun x => x.name) := by
        rw [← h]; exact List.mem_map_of_mem _ hu'
      rw [hv'] at hm
      exact absurd hm hnd.1
    · exact ih hnd.2 hu' hv'

theorem updateVar_names (st : Store) (v : Variable) :
    (updateVar st v).map (fun w => w.name) = st.map (fun w => w.name) := by
  simp only [updateVar, List.map_map]
  apply List.map_congr_left
  intro w _
  by_cases h : w.name = v.name <;> simp [h]

theorem lookupVar_updateVar_ne {st : Store} {v : Variable} {n : String}
    (h : n ≠ v.name) : lookupVar (updateVar st v) n = lookupVar st n := by
  induction st with
  | nil => rfl
  | cons w ws ih =>
    rw [updateVar, List.map_cons]
    by_cases hw : w.name = v.name
    · rw [if_pos hw, lookupVar, List.find?_cons_of_neg _ (by simpa using Ne.symm h)]
      rw [lookupVar, List.find?_cons_of_neg _ (by
        simp only [decide_eq_true_eq]
        exact fun hc => h (hc.symm.trans hw))]
      exact ih
    · rw [if_neg hw]
      by_cases hn : w.name = n
      · rw [lookupVar, List.find?_cons_of_pos _ (by simpa using hn), lookupVar,
          List.find?_cons_of_pos _ (by simpa using hn)]
      · rw [lookupVar, List.find?_cons_of_neg _ (by simpa using hn), lookupVar,
          List.find?_cons_of_neg _ (by simpa using hn)]
        exact ih

theorem lookupVar_updateVar_self {st : Store} {v : Variable}
    (h : (lookupVar st v.name).isSome) :
    lookupVar (updateVar st v) v.name = some v := by
  induction st with
  | nil => simp [lookupVar] at h
  | cons w ws ih =>
    by_cases hw : w.name = v.name
    · rw [updateVar, List.map_cons, if_pos hw, lookupVar, List.find?_cons_of_pos _ (by simp)]
    · rw [lookupVar, List.find?_cons_of_neg _ (by simpa using hw)] at h
      rw [updateVar, List.map_cons, if_neg hw, lookupVar,
        List.find?_cons_of_neg _ (by simpa using hw)]
      exact ih h

theorem updateVar_not_mem {st : Store} {v : Variable}
    (h : v.name ∉ st.map (fun w => w.name)) : updateVar st v = st := by
  induction st with
  | nil => rfl
  | cons w ws ih =>
    simp only [List.map_cons, List.mem_cons, not_or] at h
    rw [updateVar, List.map_cons, if_neg (fun hw => h.1 hw.symm)]
    exact congrArg _ (ih h.2)

theorem updateVar_of_lookup {st : Store} {v : Variable}
    (hnd : (st.map (fun w => w.name)).Nodup)
    (h : lookupVar st v.name = some v) : updateVar st v = st := by
  induction st with
  | nil => simp [lookupVar] at h
  | cons w ws ih =>
    simp only [List.map_cons, List.nodup_cons] at hnd
    by_cases hw : w.name = v.name
    · rw [lookupVar, List.find?_cons_of_pos _ (by simpa using hw)] at h
      have hwv : w = v := by injection h
      rw [updateVar, List.map_cons, if_pos hw]
      rw [hwv]
      exact congrArg _ (updateVar_not_mem (hwv ▸ hnd.1))
    · rw [lookupVar, List.find?_cons_of_neg _ (by simpa using hw)] at h
      rw [updateVar, List.map_cons, if_neg hw]
      exact congrArg _ (ih hnd.2 h)

theorem updateVar_comm {st : Store} {a b : Variable} (h : a.name ≠ b.name) :
    updateVar (updateVar st a) b = updateVar (updateVar st b) a := by
  simp only [updateVar, List.map_map]
  apply List.map_congr_left
  intro w _
  simp only [Function.comp]
  by_cases ha : w.name = a.name <;> by_cases hb : w.name = b.name
  · exact absurd (ha.symm.trans hb) h
  · simp [ha, hb, h]
  · simp [ha, hb, Ne.symm h]
  · simp [ha, hb]

theorem updateVar_absorb {st : Store} {a b : Variable} (h : b.name = a.name) :
    updateVar (updateVar st a) b = updateVar st b := by
  simp only [updateVar, List.map_map]
  apply List.map_congr_left
  intro w _
  simp only [Function.comp]
  by_cases ha : w.name = a.name
  · simp [ha, h.symm]
  · simp [ha, fun hc : w.name = b.name => ha (hc.trans h)]

theorem assignStep_name (w : Variable) (v : Option Val) (d : List Val) :
    (assignStep w v d).name = w.name := rfl

theorem ma_go_cons_none (st : Store) (n : String) (v : Option Val) (d : List Val)
    (rest : List (String × Option Val × List Val)) (hw : lookupVar st n = none) :
    make_assignment_go st ((n, v, d) :: rest) = make_assignment_go st rest := by
  simp [make_assignment_go, hw]

theorem ma_go_cons_skip (st : Store) (n : String) (v : Option Val) (d : List Val)
    (rest : List (String × Option Val × List Val)) (w : Variable)
    (hw : lookupVar st n = some w) (he : w.value = v) :
    make_assignment_go st ((n, v, d) :: rest) = make_assignment_go st rest := by
  simp [make_assignment_go, hw, he]

theorem ma_go_cons_mod (st : Store) (n : String) (v : Option Val) (d : List Val)
    (rest : List (String × Option Val × List Val)) (w : Variable)
    (hw : lookupVar st n = some w) (he : ¬ w.value = v) :
    make_assignment_go st ((n, v, d) :: rest) =
      ((make_assignment_go (updateVar st (assignStep w v d)) rest).1,
       ⟨w.name :: (make_assignment_go (updateVar st (assignStep w v d)) rest).2.names,
        w.value :: (make_assignment_go (updateVar st (assignStep w v d)) rest).2.values,
        w.domain :: (make_assignment_go (updateVar st (assignStep w v d)) rest).2.domains⟩) := by
  simp [make_assignment_go, hw, he]

theorem ma_go_names (l : List (String × Option Val × List Val)) (st : Store) :
    ((make_assignment_go st l).1).map (fun v => v.name) = st.map (fun v => v.name) := by
  induction l generalizing st with
  | nil => rfl
  | cons t rest ih =>
    obtain ⟨n, v, d⟩ := t
    rw [make_assignment_go]
    cases hw : lookupVar st n with
    | none => exact ih st
    | some w =>
      by_cases he : w.value = v
      · simp only [he, if_pos]
        exact ih st
      · simp only [he, if_neg, if_false]
        rw [ih (updateVar st (assignStep w v d)), updateVar_names]

theorem ma_go_lookup_not_mem (l : List (String × Option Val × List Val)) (st : Store)
    (n : String) (h : n ∉ l.map (fun t => t.1)) :
    lookupVar (make_assignment_go st l).1 n = lookupVar st n := by
  induction l generalizing st with
  | nil => rfl
  | cons t rest ih =>
    obtain ⟨m, v, d⟩ := t
    simp only [List.map_cons, List.mem_cons, not_or] at h
    rw [make_assignment_go]
    cases hw : lookupVar st m with
    | none => exact ih st h.2
    | some w =>
      by_cases he : w.value = v
      · simp only [he, if_pos]
        exact ih st h.2
      · simp only [he, if_neg, if_false]
        rw [ih _ h.2, lookupVar_updateVar_ne]
        rw [assignStep_name, lookupVar_name hw]
        exact h.1

theorem ma_go_undo_names_sub (l : List (String × Option Val × List Val)) (st : Store) :
    ∀ m ∈ (make_assignment_go st l).2.names, m ∈ l.map (fun t => t.1) := by
  induction l generalizing st with
  | nil => simp [make_assignment_go]
  | cons t rest ih =>
    obtain ⟨n, v, d⟩ := t
    intro m hm
    rw [make_assignment_go] at hm
    cases hw : lookupVar st n with
    | none =>
      rw [hw] at hm
      exact List.mem_cons_of_mem _ (ih st m hm)
    | some w =>
      rw [hw] at hm
      by_cases he : w.value = v
      · simp only [he, if_pos] at hm
        exact List.mem_cons_of_mem _ (ih st m hm)
      · simp only [he, if_neg, if_false] at hm
        rcases List.mem_cons.mp hm with h' | h'
        · simp [h', lookupVar_name hw]
        · exact List.mem_cons_of_mem _ (ih _ m h')

theorem ma_go_update_comm (l : List (String × Option Val × List Val)) (st : Store)
    (v : Variable) (h : v.name ∉ l.map (fun t => t.1)) :
    (make_assignment_go (updateVar st v) l).1 = updateVar (make_assignment_go st l).1 v := by
  induction l generalizing st with
  | nil => rfl
  | cons t rest ih =>
    obtain ⟨n, val, d⟩ := t
    simp only [List.map_cons, List.mem_cons, not_or] at h
    rw [make_assignment_go, make_assignment_go,
      lookupVar_updateVar_ne (fun hn => h.1 hn.symm)]
    cases hw : lookupVar st n with
    | none => exact ih st h.2
    | some w =>
      by_cases he : w.value = val
      · simp only [he, if_pos]
        exact ih st h.2
      · simp only [he, if_neg, if_false]
        rw [updateVar_comm (a := v) (b := assignStep w val d)
          (by rw [assignStep_name, lookupVar_name hw]; exact h.1)]
        exact ih _ h.2

theorem ma_go_roundtrip (l : List (String × Option Val × List Val)) (st : Store)
    (hnd : (st.map (fun v => v.name)).Nodup)
    (hl : (l.map (fun t => t.1)).Nodup)
    (hnone : ∀ t ∈ l, ∀ w, lookupVar st t.1 = some w → w.value = none) :
    (make_assignment_go (make_assignment_go st l).1
      ((make_assignment_go st l).2.names.zip
        ((make_assignment_go st l).2.values.zip (make_assignment_go st l).2.domains))).1
      = st := by
  induction l generalizing st with
  | nil => rfl
  | cons t rest ih =>
    obtain ⟨n, v, d⟩ := t
    simp only [List.map_cons, List.nodup_cons] at hl
    cases hw : lookupVar st n with
    | none =>
      rw [ma_go_cons_none st n v d rest hw]
      exact ih st hnd hl.2 (fun t ht w hlw => hnone t (List.mem_cons_of_mem _ ht) w hlw)
    | some w =>
      have hwn : w.name = n := lookupVar_name hw
      have hwv : w.value = none := hnone (n, v, d) (List.mem_cons_self _ _) w hw
      by_cases he : w.value = v
      · rw [ma_go_cons_skip st n v d rest w hw he]
        exact ih st hnd hl.2 (fun t ht u hlu => hnone t (List.mem_cons_of_mem _ ht) u hlu)
      · have hstepback : assignStep (assignStep w v d) w.value w.domain = w := by
          rw [hwv]
          show Variable.mk w.name w.domain w.init_domain none = w
          rw [← hwv]
        rw [ma_go_cons_mod st n v d rest w hw he]
        set aw := assignStep w v d with haw
        set st1 := updateVar st aw with hst1
        have hawname : aw.name = w.name := by rw [haw, assignStep_name]
        have hnd1 : (st1.map (fun v => v.name)).Nodup := by
          rw [hst1, updateVar_names]; exact hnd
        have hnone1 : ∀ t ∈ rest, ∀ u, lookupVar st1 t.1 = some u → u.value = none := by
          intro t ht u hlu
          rw [hst1, lookupVar_updateVar_ne (by
            rw [hawname, hwn]
            intro hc
            exact hl.1 (hc ▸ List.mem_map_of_mem _ ht))] at hlu
          exact hnone t (List.mem_cons_of_mem _ ht) u hlu
        set st2 := (make_assignment_go st1 rest).1 with hst2
        set urest := (make_assignment_go st1 rest).2.names.zip
          ((make_assignment_go st1 rest).2.values.zip
            (make_assignment_go st1 rest).2.domains) with hurest
        have hwnotu : w.name ∉ urest.map (fun t => t.1) := by
          intro hc
          rcases List.mem_map.mp hc with ⟨t, ht, hteq⟩
          obtain ⟨a, b⟩ := t
          rw [hurest] at ht
          have h1 : a ∈ (make_assignment_go st1 rest).2.names := (List.of_mem_zip ht).1
          have h2 := ma_go_undo_names_sub rest st1 a h1
          rw [show a = w.name from hteq, hwn] at h2
          exact hl.1 h2
        have hlook2 : lookupVar st2 w.name = some aw := by
          rw [hst2, ma_go_lookup_not_mem _ _ _ (by rw [hwn]; exact hl.1), hst1]
          have hs : (lookupVar st aw.name).isSome := by
            rw [hawname, hwn, hw]; rfl
          have h2 := @lookupVar_updateVar_self st aw hs
          rw [hawname] at h2
          exact h2
        have hawv : aw.value = v := by rw [haw]; rfl
        have hne2 : ¬ aw.value = w.value := by
          rw [hawv]; exact fun hc => he hc.symm
        -- one step of the undo application
        show (make_assignment_go st2 ((w.name, w.value, w.domain) :: urest)).1 = st
        rw [ma_go_cons_mod st2 w.name w.value w.domain urest aw hlook2 hne2]
        show (make_assignment_go (updateVar st2 (assignStep aw w.value w.domain)) urest).1 = st
        rw [hstepback]
        rw [ma_go_update_comm urest st2 w hwnotu]
        rw [hst2, hurest, ih st1 hnd1 hl.2 hnone1]
        rw [hst1, updateVar_absorb hawname.symm, updateVar_of_lookup hnd (hwn ▸ hw)]

theorem map_fst_zip_sublist {α β : Type} (as : List α) (bs : List β) :
    ((as.zip bs).map (fun t => t.1)).Sublist as := by
  induction as generalizing bs with
  | nil => simp
  | cons a as ih =>
    cases bs with
    | nil => simp
    | cons b bs => simpa using (ih bs).cons₂ a

theorem make_assignment_names (st : Store) (ns : List String) (vs : List (Option Val))
    (ds : Option (List (List Val))) :
    ((make_assignment st ns vs ds).1).map (fun v => v.name) = st.map (fun v => v.name) :=
  ma_go_names _ _

theorem make_assignment_lookup_not_mem (st : Store) (ns : List String)
    (vs : List (Option Val)) (ds : Option (List (List Val))) {n : String}
    (h : n ∉ ns) :
    lookupVar (make_assignment st ns vs ds).1 n = lookupVar st n := by
  apply ma_go_lookup_not_mem
  intro hc
  rcases List.mem_map.mp hc with ⟨t, ht, hteq⟩
  obtain ⟨a, b⟩ := t
  exact h (hteq ▸ (List.of_mem_zip ht).1)

theorem make_assignment_single_value {st : Store} {n : String} {v : Option Val}
    {w : Variable} (hw : lookupVar st n = some w) :
    ∃ w', lookupVar (make_assignment st [n] [v] none).1 n = some w' ∧ w'.value = v := by
  by_cases he : w.value = v
  · refine ⟨w, ?_, he⟩
    show lookupVar (make_assignment_go st [(n, v, (getVar st n).domain)]).1 n = some w
    rw [ma_go_cons_skip st n v _ [] w hw he]
    exact hw
  · refine ⟨assignStep w v (getVar st n).domain, ?_, rfl⟩
    show lookupVar (make_assignment_go st [(n, v, (getVar st n).domain)]).1 n
      = some (assignStep w v (getVar st n).domain)
    rw [ma_go_cons_mod st n v _ [] w hw he]
    show lookupVar (updateVar st (assignStep w v (getVar st n).domain)) n = _
    have hs : (lookupVar st (assignStep w v (getVar st n).domain).name).isSome := by
      rw [assignStep_name, lookupVar_name hw, hw]; rfl
    have h2 := @lookupVar_updateVar_self st (assignStep w v (getVar st n).domain) hs
    rw [assignStep_name, lookupVar_name hw] at h2
    exact h2

/-- Applying the undo record of a `make_assignment` call restores the
store exactly, provided the assigned names are distinct and every
assigned variable was previously unassigned (its saved value is `None`,
so the undo's domain restoration is exact). -/
theorem make_assignment_roundtrip (st : Store) (names : List String)
    (values : List (Option Val))
    (hnd : (st.map (fun v => v.name)).Nodup)
    (hnames : names.Nodup)
    (hnone : ∀ n ∈ names, ∀ w, lookupVar st n = some w → w.value = none) :
    (make_assignment (make_assignment st names values none).1
      (make_assignment st names values none).2.names
      (make_assignment st names values none).2.values
      (some (make_assignment st names values none).2.domains)).1 = st := by
  have h := ma_go_roundtrip
    (names.zip (values.zip (names.map (fun n => (getVar st n).domain)))) st hnd
    (hnames.sublist (map_fst_zip_sublist _ _))
    (by
      intro t ht w hlw
      obtain ⟨a, b⟩ := t
      exact hnone a (List.of_mem_zip ht).1 w hlw)
  exact h

theorem foldl_min_le (l : List (Val × Nat)) (a : Nat) :
    (∀ q ∈ l, l.foldl (fun x q => Nat.min x q.2) a ≤ q.2) ∧
      l.foldl (fun x q => Nat.min x q.2) a ≤ a := by
  induction l generalizing a with
  | nil => simp
  | cons q qs ih =>
    obtain ⟨ih1, ih2⟩ := ih (Nat.min a q.2)
    refine ⟨?_, le_trans ih2 (Nat.min_le_left _ _)⟩
    intro q' hq'
    rcases List.mem_cons.mp hq' with h | h
    · rw [h]; exact le_trans ih2 (Nat.min_le_right _ _)
    · exact ih1 q' h

theorem getD_mem {α : Type} (l : List α) (i : Nat) (d : α) (hd : d ∈ l) :
    l.getD i d ∈ l := by
  rw [List.getD_eq_getElem?_getD]
  cases h : l[i]? with
  | none => simpa using hd
  | some y =>
    have : y ∈ l := List.getElem?_mem h
    simpa [h] using this

theorem randChoice_mem {α : Type} {l : List α} {rng rng' : Rng} {x : α}
    (h : randChoice l rng = .ok (x, rng')) : x ∈ l := by
  cases l with
  | nil => simp [randChoice] at h
  | cons a as =>
    simp only [randChoice, Except.ok.injEq, Prod.mk.injEq] at h
    rw [← h.1]
    exact getD_mem _ _ _ (by simp)

theorem putCount_keys {cc : List (Val × Nat)} {v : Val} {k : Nat} :
    ∀ p ∈ putCount cc v k, p.1 ∈ cc.map (fun q => q.1) ∨ p.1 = v := by
  intro p hp
  unfold putCount at hp
  split at hp
  · rcases List.mem_map.mp hp with ⟨q, hq, heq⟩
    by_cases hqv : q.1 = v
    · rw [if_pos hqv] at heq
      right
      rw [← heq]
      exact hqv
    · rw [if_neg hqv] at heq
      left
      rw [← heq]
      exact List.mem_map_of_mem _ hq
  · rcases List.mem_append.mp hp with h | h
    · exact Or.inl (List.mem_map_of_mem _ h)
    · right
      simp only [List.mem_singleton] at h
      rw [h]

theorem assign_unique_value_names {wn : String} {st st' : Store} {u : Undo}
    {rng rng' : Rng} (h : assign_unique_value wn st rng = .ok (st', u, rng')) :
    st'.map (fun v => v.name) = st.map (fun v => v.name) := by
  unfold assign_unique_value at h
  dsimp only [] at h
  split at h
  · exact absurd h (by simp)
  · simp only [Except.ok.injEq, Prod.mk.injEq] at h
    rw [← h.1]
    exact make_assignment_names _ _ _ _

theorem assign_unique_value_lookup_ne {wn n : String} {st st' : Store} {u : Undo}
    {rng rng' : Rng} (hne : n ≠ wn)
    (h : assign_unique_value wn st rng = .ok (st', u, rng')) :
    lookupVar st' n = lookupVar st n := by
  unfold assign_unique_value at h
  dsimp only [] at h
  split at h
  · exact absurd h (by simp)
  · simp only [Except.ok.injEq, Prod.mk.injEq] at h
    rw [← h.1]
    exact make_assignment_lookup_not_mem _ _ _ _ (by simp [hne])

theorem conflict_step_names {varName : String} {cs : List Constraint} {uniq : Bool}
    {st st' : Store} {rng rng' : Rng} {value : Val} {cnt : Nat}
    (h : conflict_step varName cs uniq st rng value = .ok (cnt, st', rng')) :
    st'.map (fun v => v.name) = st.map (fun v => v.name) := by
  unfold conflict_step at h
  split at h
  · split at h
    · split at h
      · exact absurd h (by simp)
      · rename_i w _ s hauv
        split at h
        · exact absurd h (by simp)
        · simp only [Except.ok.injEq, Prod.mk.injEq] at h
          rw [← h.2.1, make_assignment_names, assign_unique_value_names hauv,
            make_assignment_names]
    · split at h
      · exact absurd h (by simp)
      · simp only [Except.ok.injEq, Prod.mk.injEq] at h
        rw [← h.2.1, make_assignment_names]
  · split at h
    · exact absurd h (by simp)
    · simp only [Except.ok.injEq, Prod.mk.injEq] at h
      rw [← h.2.1, make_assignment_names]

theorem conflict_table_names {varName : String} {cs : List Constraint} {uniq : Bool}
    {cc' : List (Val × Nat)} {st' : Store} {rng' : Rng} :
    ∀ (dom : List Val) (cc : List (Val × Nat)) (st : Store) (rng : Rng),
    conflict_table varName cs uniq cc st rng dom = .ok (cc', st', rng') →
    st'.map (fun v => v.name) = st.map (fun v => v.name) := by
  intro dom
  induction dom with
  | nil =>
    intro cc st rng h
    simp only [conflict_table, Except.ok.injEq, Prod.mk.injEq] at h
    rw [h.2.1]
  | cons value rest ih =>
    intro cc st rng h
    rw [conflict_table] at h
    split at h
    · exact absurd h (by simp)
    · rename_i r hstep
      rw [ih _ _ _ h, conflict_step_names hstep]

theorem conflict_table_keys {varName : String} {cs : List Constraint} {uniq : Bool}
    {cc' : List (Val × Nat)} {st' : Store} {rng' : Rng} :
    ∀ (dom : List Val) (cc : List (Val × Nat)) (st : Store) (rng : Rng),
    conflict_table varName cs uniq cc st rng dom = .ok (cc', st', rng') →
    ∀ p ∈ cc', p.1 ∈ cc.map (fun q => q.1) ∨ p.1 ∈ dom := by
  intro dom
  induction dom with
  | nil =>
    intro cc st rng h p hp
    simp only [conflict_table, Except.ok.injEq, Prod.mk.injEq] at h
    rw [← h.1] at hp
    exact Or.inl (List.mem_map_of_mem _ hp)
  | cons value rest ih =>
    intro cc st rng h p hp
    rw [conflict_table] at h
    split at h
    · exact absurd h (by simp)
    · rcases ih _ _ _ h p hp with hk | hk
      · rcases List.mem_map.mp hk with ⟨q, hq, hqeq⟩
        rcases putCount_keys q hq with h' | h'
        · exact Or.inl (hqeq ▸ h')
        · exact Or.inr (by rw [← hqeq, h']; exact List.mem_cons_self _ _)
      · exact Or.inr (List.mem_cons_of_mem _ hk)

theorem dictArgs_ok {st : Store} : ∀ {ns : List String},
    (∀ n ∈ ns, n ∈ st.map (fun v => v.name)) →
    ∃ args, dictArgs st ns = .ok args := by
  intro ns
  induction ns with
  | nil => exact fun _ => ⟨[], rfl⟩
  | cons n rest ih =>
    intro h
    have hs : (lookupVar st n).isSome :=
      lookupVar_isSome_iff.mpr (h n (List.mem_cons_self _ _))
    obtain ⟨v, hv⟩ := Option.isSome_iff_exists.mp hs
    obtain ⟨args, hargs⟩ := ih (fun m hm => h m (List.mem_cons_of_mem _ hm))
    exact ⟨v :: args, by rw [dictArgs, hv, hargs]⟩

theorem constraintArgs_ok {pst : Store} {varName : String} {relNames : List String} :
    ∀ {ns : List String},
    (∀ n ∈ ns, (n = varName ∨ n ∈ relNames) ∧ n ∈ pst.map (fun v => v.name)) →
    ∃ args, constraintArgs pst varName relNames ns = .ok args := by
  intro ns
  induction ns with
  | nil => exact fun _ => ⟨[], rfl⟩
  | cons n rest ih =>
    intro h
    have hs : (lookupVar pst n).isSome :=
      lookupVar_isSome_iff.mpr (h n (List.mem_cons_self _ _)).2
    obtain ⟨v, hv⟩ := Option.isSome_iff_exists.mp hs
    obtain ⟨args, hargs⟩ := ih (fun m hm => h m (List.mem_cons_of_mem _ hm))
    refine ⟨v :: args, ?_⟩
    rw [constraintArgs, if_pos (h n (List.mem_cons_self _ _)).1, hv, hargs]

theorem updateVar_all_none {st : Store} {x : Variable}
    (hall : ∀ u ∈ st, u.value = none) (hx : x.value = none) :
    ∀ u ∈ updateVar st x, u.value = none := by
  intro u hu
  rcases List.mem_map.mp hu with ⟨w, hw, hweq⟩
  by_cases h : w.name = x.name
  · rw [← hweq, if_pos h]; exact hx
  · rw [← hweq, if_neg h]; exact hall w hw

theorem getVar_congr {st st' : Store} {n : String}
    (h : lookupVar st n = lookupVar st' n) : getVar st n = getVar st' n := by
  unfold getVar
  rw [h]

/-- `make_random_assignment` raises `IndexError` whenever some variable
named in the remaining pass has an empty domain (with uniqueness off,
the candidate set is the domain itself and the fallback is the same
empty domain). -/
theorem mra_empty_domain :
    ∀ (names : List String) (st : Store) (chosen : List Val) (rng : Rng),
    (st.map (fun v => v.name)).Nodup →
    (∃ n ∈ names, (getVar st n).domain = []) →
    make_random_assignment false st chosen rng names = .error .indexError := by
  intro names
  induction names with
  | nil =>
    intro st chosen rng _ h
    simp at h
  | cons n rest ih =>
    intro st chosen rng hnd h
    by_cases hdom : (getVar st n).domain = []
    · rw [make_random_assignment]
      simp [hdom, randChoice]
    · obtain ⟨m, hm, hmdom⟩ := h
      have hmrest : m ∈ rest := by
        rcases List.mem_cons.mp hm with h' | h'
        · exact absurd (h' ▸ hmdom) hdom
        · exact h'
      have hmne : m ≠ n := fun hc => hdom (hc ▸ hmdom)
      rw [make_random_assignment]
      rcases hd : (getVar st n).domain with _ | ⟨d, ds⟩
      · exact absurd hd hdom
      · simp only [hd, Bool.false_eq_true, if_false, ite_self, randChoice]
        apply ih
        · rw [make_assignment_names]; exact hnd
        · refine ⟨m, hmrest, ?_⟩
          rw [getVar_congr (make_assignment_lookup_not_mem _ _ _ _ (by simp [hmne]))]
          exact hmdom

/-- When every variable the simulation touches is unassigned, each
hypothetical binding of the remaining participants is fully undone, so
the `remaining_values` loop leaves the simulation store exactly as it
found it (and cannot raise when every constraint participant is
resolvable). -/
theorem tryCombos_inv {varName : String} {relNames : List String} {c : Constraint}
    {remNames : List String} :
    ∀ (combos : List (List Val)) (pst : Store),
    (pst.map (fun v => v.name)).Nodup →
    remNames.Nodup →
    (∀ m ∈ remNames, ∀ u, lookupVar pst m = some u → u.value = none) →
    (∀ n ∈ c.var_names, (n = varName ∨ n ∈ relNames) ∧ n ∈ pst.map (fun v => v.name)) →
    ∃ b, tryCombos varName relNames c remNames pst combos = .ok (b, pst) := by
  intro combos
  induction combos with
  | nil => intro pst _ _ _ _; exact ⟨false, rfl⟩
  | cons combo rest ih =>
    intro pst hnd hrnd hrnone hcover
    have hnames_p :
        ((make_assignment pst remNames (combo.map some) none).1).map (fun v => v.name)
          = pst.map (fun v => v.name) := make_assignment_names _ _ _ _
    obtain ⟨args, hargs⟩ := @constraintArgs_ok
      (make_assignment pst remNames (combo.map some) none).1 varName relNames
      c.var_names
      (fun n hn => ⟨(hcover n hn).1, by rw [hnames_p]; exact (hcover n hn).2⟩)
    have hq : (make_assignment (make_assignment pst remNames (combo.map some) none).1
        (make_assignment pst remNames (combo.map some) none).2.names
        (make_assignment pst remNames (combo.map some) none).2.values
        (some (make_assignment pst remNames (combo.map some) none).2.domains)).1 = pst :=
      make_assignment_roundtrip pst remNames (combo.map some) hnd hrnd hrnone
    by_cases hv : c.satisfied args = true
    · refine ⟨true, ?_⟩
      simp only [tryCombos, hargs, hv, if_true, hq]
    · obtain ⟨b, hb⟩ := ih pst hnd hrnd hrnone hcover
      refine ⟨b, ?_⟩
      simp only [tryCombos, hargs, hv, if_false, hq, Bool.false_eq_true]
      exact hb

/-- On a fully unassigned simulation store the test of one candidate
value for one other variable restores the store exactly (the partial
binding of `var` and the other variable is undone, and the saved values
are `None`, so the saved domains are restored verbatim). -/
theorem checkOtherValue_inv {varName : String} {value : Val} {relNames : List String}
    {c : Constraint} {n : String} {other_value : Val} {pst : Store}
    (hnd : (pst.map (fun v => v.name)).Nodup)
    (hall : ∀ u ∈ pst, u.value = none)
    (hcover : ∀ m ∈ c.var_names,
      (m = varName ∨ m ∈ relNames) ∧ m ∈ pst.map (fun v => v.name))
    (hrelnd : relNames.Nodup)
    (hvnotin : varName ∉ relNames)
    (hn : n ∈ relNames) :
    ∃ b, checkOtherValue varName value relNames c n other_value pst = .ok (b, pst) := by
  have hvn_ne : varName ≠ n := fun hc => hvnotin (hc ▸ hn)
  have hpair_nd : ([varName, n] : List String).Nodup := by simp [hvn_ne]
  have hpair_none : ∀ m ∈ [varName, n], ∀ u, lookupVar pst m = some u →
      u.value = none := by
    intro m _ u hu
    exact hall u (lookupVar_mem hu)
  have hnames_p :
      ((make_assignment pst [varName, n] [some value, some other_value] none).1).map
        (fun v => v.name) = pst.map (fun v => v.name) := make_assignment_names _ _ _ _
  have hq := make_assignment_roundtrip pst [varName, n] [some value, some other_value]
    hnd hpair_nd hpair_none
  by_cases hre : (relNames.filter (fun m => m ≠ n)).isEmpty
  · obtain ⟨args, hargs⟩ := @constraintArgs_ok
      (make_assignment pst [varName, n] [some value, some other_value] none).1
      varName relNames c.var_names
      (fun m hm => ⟨(hcover m hm).1, by rw [hnames_p]; exact (hcover m hm).2⟩)
    refine ⟨c.satisfied args, ?_⟩
    simp only [checkOtherValue, hre, if_true, hargs, hq]
  · have hrem_nd : (relNames.filter (fun m => m ≠ n)).Nodup := hrelnd.filter _
    have hrem_none : ∀ m ∈ relNames.filter (fun m => m ≠ n), ∀ u,
        lookupVar (make_assignment pst [varName, n]
          [some value, some other_value] none).1 m = some u → u.value = none := by
      intro m hm u hu
      have hm' := List.mem_filter.mp hm
      have hmne_n : m ≠ n := by simpa using hm'.2
      have hmne_v : m ≠ varName := fun hc => hvnotin (hc ▸ hm'.1)
      rw [make_assignment_lookup_not_mem _ _ _ _ (by simp [hmne_v, hmne_n])] at hu
      exact hall u (lookupVar_mem hu)
    obtain ⟨b, hb⟩ := @tryCombos_inv varName relNames c
      (relNames.filter (fun m => m ≠ n))
      (cartProd ((relNames.filter (fun m => m ≠ n)).map (fun m =>
        (getVar (make_assignment pst [varName, n]
          [some value, some other_value] none).1 m).domain)))
      (make_assignment pst [varName, n] [some value, some other_value] none).1
      (by rw [hnames_p]; exact hnd) hrem_nd hrem_none
      (fun m hm => ⟨(hcover m hm).1, by rw [hnames_p]; exact (hcover m hm).2⟩)
    refine ⟨b, ?_⟩
    simp only [checkOtherValue, hre, if_false, Bool.false_eq_true, hb, hq]

theorem getVar_name (st : Store) (n : String) : (getVar st n).name = n := by
  unfold getVar
  cases h : lookupVar st n with
  | none => rfl
  | some u => exact lookupVar_name h

theorem getVar_value_none {st : Store} {n : String}
    (hall : ∀ u ∈ st, u.value = none) : (getVar st n).value = none := by
  unfold getVar
  cases h : lookupVar st n with
  | none => rfl
  | some u => exact hall u (lookupVar_mem h)

theorem lookupVar_of_mem_nodup {st : Store} {v : Variable}
    (hnd : (st.map (fun w => w.name)).Nodup) (hv : v ∈ st) :
    lookupVar st v.name = some v := by
  have hs : (lookupVar st v.name).isSome :=
    lookupVar_isSome_iff.mpr (List.mem_map_of_mem _ hv)
  obtain ⟨u, hu⟩ := Option.isSome_iff_exists.mp hs
  rw [hu, mem_name_unique hnd (lookupVar_mem hu) hv (lookupVar_name hu)]

/-- The `other_value` loop of `_num_pruned` leaves a fully unassigned
simulation store exactly as it found it. -/
theorem collectInvalid_inv {varName : String} {value : Val} {relNames : List String}
    {c : Constraint} {n : String} :
    ∀ (dom : List Val) (invalid : List Val) (pst : Store),
    (pst.map (fun v => v.name)).Nodup →
    (∀ u ∈ pst, u.value = none) →
    (∀ m ∈ c.var_names, (m = varName ∨ m ∈ relNames) ∧ m ∈ pst.map (fun v => v.name)) →
    relNames.Nodup →
    varName ∉ relNames →
    n ∈ relNames →
    ∃ inv, collectInvalid varName value relNames c n invalid pst dom = .ok (inv, pst) := by
  intro dom
  induction dom with
  | nil => intro invalid pst _ _ _ _ _ _; exact ⟨invalid, rfl⟩
  | cons ov rest ih =>
    intro invalid pst hnd hall hcover hrelnd hvnotin hn
    obtain ⟨b, hb⟩ := @checkOtherValue_inv varName value relNames c n ov pst
      hnd hall hcover hrelnd hvnotin hn
    obtain ⟨inv, hinv⟩ := ih (if b then invalid else invalid ++ [ov]) pst
      hnd hall hcover hrelnd hvnotin hn
    refine ⟨inv, ?_⟩
    rw [collectInvalid, hb]
    exact hinv

/-- Pruning one copy's domain in `_num_pruned` keeps the store's names,
keeps every variable unassigned, and does not touch the entry of the
variable being ordered. -/
theorem checkOtherVar_inv {varName : String} {value : Val} {relNames : List String}
    {c : Constraint} {n : String} {pst : Store}
    (hnd : (pst.map (fun v => v.name)).Nodup)
    (hall : ∀ u ∈ pst, u.value = none)
    (hcover : ∀ m ∈ c.var_names,
      (m = varName ∨ m ∈ relNames) ∧ m ∈ pst.map (fun v => v.name))
    (hrelnd : relNames.Nodup)
    (hvnotin : varName ∉ relNames)
    (hn : n ∈ relNames) :
    ∃ pst', checkOtherVar varName value relNames c pst n = .ok pst' ∧
      pst'.map (fun v => v.name) = pst.map (fun v => v.name) ∧
      (∀ u ∈ pst', u.value = none) ∧
      lookupVar pst' varName = lookupVar pst varName := by
  obtain ⟨inv, hinv⟩ := @collectInvalid_inv varName value relNames c n
    (getVar pst n).domain [] pst hnd hall hcover hrelnd hvnotin hn
  refine ⟨updateVar pst { getVar pst n with
      domain := (getVar pst n).domain.filter (fun x => x ∉ inv) }, ?_, ?_, ?_, ?_⟩
  · rw [checkOtherVar, hinv]
  · exact updateVar_names _ _
  · exact updateVar_all_none hall (getVar_value_none hall)
  · apply lookupVar_updateVar_ne
    show varName ≠ ({ getVar pst n with
      domain := (getVar pst n).domain.filter (fun x => x ∉ inv) } : Variable).name
    have : ({ getVar pst n with
        domain := (getVar pst n).domain.filter (fun x => x ∉ inv) } : Variable).name
        = n := getVar_name pst n
    rw [this]
    exact fun hc => hvnotin (hc ▸ hn)

/-- The `other_var` loop of `_num_pruned` preserves the same invariant. -/
theorem checkOtherVars_inv {varName : String} {value : Val} {relNames : List String}
    {c : Constraint} :
    ∀ (ns : List String) (pst : Store),
    (pst.map (fun v => v.name)).Nodup →
    (∀ u ∈ pst, u.value = none) →
    (∀ m ∈ c.var_names, (m = varName ∨ m ∈ relNames) ∧ m ∈ pst.map (fun v => v.name)) →
    relNames.Nodup →
    varName ∉ relNames →
    (∀ m ∈ ns, m ∈ relNames) →
    ∃ pst', checkOtherVars varName value relNames c pst ns = .ok pst' ∧
      pst'.map (fun v => v.name) = pst.map (fun v => v.name) ∧
      (∀ u ∈ pst', u.value = none) ∧
      lookupVar pst' varName = lookupVar pst varName := by
  intro ns
  induction ns with
  | nil => intro pst _ _ _ _ _ _; exact ⟨pst, rfl, rfl, by assumption, rfl⟩
  | cons n rest ih =>
    intro pst hnd hall hcover hrelnd hvnotin hns
    obtain ⟨pst1, h1, hn1, hv1, hl1⟩ := @checkOtherVar_inv varName value relNames c n pst
      hnd hall hcover hrelnd hvnotin (hns n (List.mem_cons_self _ _))
    obtain ⟨pst', h2, hn2, hv2, hl2⟩ := ih pst1
      (by rw [hn1]; exact hnd) hv1
      (fun m hm => ⟨(hcover m hm).1, by rw [hn1]; exact (hcover m hm).2⟩)
      hrelnd hvnotin (fun m hm => hns m (List.mem_cons_of_mem _ hm))
    refine ⟨pst', ?_, by rw [hn2, hn1], hv2, by rw [hl2, hl1]⟩
    rw [checkOtherVars, h1]
    exact h2

/-- Scoring one candidate value against one constraint preserves the
simulation store's names and unassignedness and the ordered variable's
entry, and cannot raise when every referenced name is registered. -/
theorem checkConstraint_inv {varName : String} {value : Val} {c : Constraint}
    {pst : Store}
    (hnd : (pst.map (fun v => v.name)).Nodup)
    (hall : ∀ u ∈ pst, u.value = none)
    (hreg : ∀ m ∈ c.var_names, m ∈ pst.map (fun v => v.name)) :
    ∃ pst', checkConstraint varName value pst c = .ok pst' ∧
      pst'.map (fun v => v.name) = pst.map (fun v => v.name) ∧
      (∀ u ∈ pst', u.value = none) ∧
      lookupVar pst' varName = lookupVar pst varName := by
  by_cases hv : varName ∈ c.var_names
  · have hrel_sub :
        (((pst.filter (fun v => v.name ≠ varName && v.name ∈ c.var_names)).map
          (fun v => v.name))).Sublist (pst.map (fun v => v.name)) :=
      (List.filter_sublist _).map _
    have hrelnd := hnd.sublist hrel_sub
    have hvnotin : varName ∉ (pst.filter
        (fun v => v.name ≠ varName && v.name ∈ c.var_names)).map (fun v => v.name) := by
      intro hc
      rcases List.mem_map.mp hc with ⟨u, hu, hueq⟩
      have := List.mem_filter.mp hu
      simp only [Bool.and_eq_true, decide_eq_true_eq] at this
      exact this.2.1 hueq
    have hcover : ∀ m ∈ c.var_names,
        (m = varName ∨ m ∈ (pst.filter
          (fun v => v.name ≠ varName && v.name ∈ c.var_names)).map (fun v => v.name)) ∧
        m ∈ pst.map (fun v => v.name) := by
      intro m hm
      refine ⟨?_, hreg m hm⟩
      by_cases hmv : m = varName
      · exact Or.inl hmv
      · right
        rcases List.mem_map.mp (hreg m hm) with ⟨u, hu, hueq⟩
        refine List.mem_map.mpr ⟨u, List.mem_filter.mpr ⟨hu, ?_⟩, hueq⟩
        simp only [Bool.and_eq_true, decide_eq_true_eq]
        exact ⟨fun hc => hmv (by rw [← hueq, hc]), hueq ▸ hm⟩
    obtain ⟨pst', h1, h2, h3, h4⟩ := @checkOtherVars_inv varName value
      ((pst.filter (fun v => v.name ≠ varName && v.name ∈ c.var_names)).map
        (fun v => v.name)) c
      ((pst.filter (fun v => v.name ≠ varName && v.name ∈ c.var_names)).map
        (fun v => v.name)) pst
      hnd hall hcover hrelnd hvnotin (fun m hm => hm)
    refine ⟨pst', ?_, h2, h3, h4⟩
    rw [checkConstraint, if_pos hv]
    exact h1
  · exact ⟨pst, by rw [checkConstraint, if_neg hv], rfl, hall, rfl⟩

/-- The constraint loop of `_num_pruned` preserves the invariant. -/
theorem checkConstraints_inv {varName : String} {value : Val} :
    ∀ (cs : List Constraint) (pst : Store),
    (pst.map (fun v => v.name)).Nodup →
    (∀ u ∈ pst, u.value = none) →
    (∀ c ∈ cs, ∀ m ∈ c.var_names, m ∈ pst.map (fun v => v.name)) →
    ∃ pst', checkConstraints varName value pst cs = .ok pst' ∧
      pst'.map (fun v => v.name) = pst.map (fun v => v.name) ∧
      (∀ u ∈ pst', u.value = none) ∧
      lookupVar pst' varName = lookupVar pst varName := by
  intro cs
  induction cs with
  | nil => intro pst _ hall _; exact ⟨pst, rfl, rfl, hall, rfl⟩
  | cons c rest ih =>
    intro pst hnd hall hreg
    obtain ⟨pst1, h1, hn1, hv1, hl1⟩ := @checkConstraint_inv varName value c pst
      hnd hall (hreg c (List.mem_cons_self _ _))
    obtain ⟨pst', h2, hn2, hv2, hl2⟩ := ih pst1
      (by rw [hn1]; exact hnd) hv1
      (fun c' hc' m hm => by
        rw [hn1]; exact hreg c' (List.mem_cons_of_mem _ hc') m hm)
    refine ⟨pst', ?_, by rw [hn2, hn1], hv2, by rw [hl2, hl1]⟩
    rw [checkConstraints, h1]
    exact h2

/-- On a fully unassigned problem `_num_pruned` returns the ordered
variable exactly as it received it: every hypothetical binding of the
simulation is reverted. -/
theorem num_pruned_inv {var : Variable} {others : List Variable}
    {cs : List Constraint} {value : Val}
    (hnd : ((var :: others).map (fun v => v.name)).Nodup)
    (hall : ∀ u ∈ var :: others, u.value = none)
    (hreg : ∀ c ∈ cs, ∀ m ∈ c.var_names, m ∈ (var :: others).map (fun v => v.name)) :
    ∃ k, num_pruned var others cs value = .ok (k, var) := by
  obtain ⟨pst', h1, hn1, hv1, hl1⟩ := @checkConstraints_inv var.name value
    cs (var :: others) hnd hall hreg
  have hlook : lookupVar pst' var.name = some var := by
    rw [hl1]
    exact lookupVar_of_mem_nodup hnd (List.mem_cons_self _ _)
  refine ⟨(((others.map (fun v => v.domain.length)).sum : Nat) : Int) -
    ((((pst'.filter (fun v => v.name ≠ var.name)).map
      (fun v => v.domain.length)).sum : Nat) : Int), ?_⟩
  simp only [num_pruned, h1, getVar, hlook, Option.getD_some]

/-- The decoration pass of `order_domain` threads the ordered variable
through unchanged on a fully unassigned problem. -/
theorem orderKeys_inv {others : List Variable} {cs : List Constraint} {var : Variable}
    (hnd : ((var :: others).map (fun v => v.name)).Nodup)
    (hall : ∀ u ∈ var :: others, u.value = none)
    (hreg : ∀ c ∈ cs, ∀ m ∈ c.var_names, m ∈ (var :: others).map (fun v => v.name)) :
    ∀ (dom : List Val) (pairs : List (Val × Int)),
    ∃ ps, orderKeys others cs var pairs dom = .ok (ps, var) := by
  intro dom
  induction dom with
  | nil => intro pairs; exact ⟨pairs, rfl⟩
  | cons v rest ih =>
    intro pairs
    obtain ⟨k, hk⟩ := @num_pruned_inv var others cs v hnd hall hreg
    obtain ⟨ps, hps⟩ := ih (pairs ++ [(v, k)])
    refine ⟨ps, ?_⟩
    rw [orderKeys, hk]
    exact hps

/-- `order_domain` on an unassigned variable of a fully unassigned,
well-named problem succeeds and returns the variable unchanged. -/
theorem order_domain_inv {var : Variable} {st : Store} {cs : List Constraint}
    (hnd : (st.map (fun v => v.name)).Nodup)
    (hall : ∀ u ∈ st, u.value = none)
    (hvnone : var.value = none)
    (hreg : ∀ c ∈ cs, ∀ m ∈ c.var_names, m ∈ st.map (fun v => v.name)) :
    ∃ sorted, order_domain var st cs = .ok (sorted, var) := by
  have hoth_sub : ((st.filter (fun v => v.name ≠ var.name)).map
      (fun v => v.name)).Sublist (st.map (fun v => v.name)) :=
    (List.filter_sublist _).map _
  have hnd0 : (((var :: st.filter (fun v => v.name ≠ var.name)).map
      (fun v => v.name))).Nodup := by
    rw [List.map_cons]
    refine List.nodup_cons.mpr ⟨?_, hnd.sublist hoth_sub⟩
    intro hc
    rcases List.mem_map.mp hc with ⟨u, hu, hueq⟩
    have := List.mem_filter.mp hu
    simp only [decide_eq_true_eq] at this
    exact this.2 hueq
  have hall0 : ∀ u ∈ var :: st.filter (fun v => v.name ≠ var.name), u.value = none := by
    intro u hu
    rcases List.mem_cons.mp hu with h | h
    · rw [h]; exact hvnone
    · exact hall u (List.mem_filter.mp h).1
  have hreg0 : ∀ c ∈ cs, ∀ m ∈ c.var_names,
      m ∈ (var :: st.filter (fun v => v.name ≠ var.name)).map (fun v => v.name) := by
    intro c hc m hm
    rw [List.map_cons]
    by_cases hmv : m = var.name
    · rw [hmv]; exact List.mem_cons_self _ _
    · refine List.mem_cons_of_mem _ ?_
      rcases List.mem_map.mp (hreg c hc m hm) with ⟨u, hu, hueq⟩
      exact List.mem_map.mpr ⟨u, List.mem_filter.mpr ⟨hu, by simpa [hueq] using hmv⟩, hueq⟩
  obtain ⟨ps, hps⟩ := orderKeys_inv hnd0 hall0 hreg0 var.domain []
  refine ⟨(ps.insertionSort (fun p q => p.2 ≤ q.2)).map (fun p => p.1), ?_⟩
  rw [order_domain, hps]

/-- `order_domain` on a variable whose domain is empty returns the empty
value order (no key is ever evaluated). -/
theorem order_domain_empty {var : Variable} {st : Store} {cs : List Constraint}
    (h : var.domain = []) : order_domain var st cs = .ok ([], var) := by
  rw [order_domain, h]
  rfl

theorem find?_map_key {g : String → List Val} :
    ∀ {names : List String} {n : String}, n ∈ names →
    (names.map (fun m => (m, g m))).find? (fun p => p.1 = n) = some (n, g n) := by
  intro names
  induction names with
  | nil => intro n hn; simp at hn
  | cons m rest ih =>
    intro n hn
    by_cases hmn : m = n
    · rw [List.map_cons, List.find?_cons_of_pos _ (by simpa using hmn), hmn]
    · rw [List.map_cons, List.find?_cons_of_neg _ (by simpa using hmn)]
      exact ih (by
        rcases List.mem_cons.mp hn with h | h
        · exact absurd h.symm hmn
        · exact h)

/-- On a fully unassigned, well-named problem the ordering phase leaves
the engine store untouched and records, per variable, the sorted domain
computed by `order_domain` on that store. -/
theorem orderPhase_inv {cs : List Constraint} {st : Store}
    (hnd : (st.map (fun v => v.name)).Nodup)
    (hall : ∀ u ∈ st, u.value = none)
    (hreg : ∀ c ∈ cs, ∀ m ∈ c.var_names, m ∈ st.map (fun v => v.name)) :
    ∀ (names : List String) (acc : List (String × List Val)),
    (∀ n ∈ names, n ∈ st.map (fun v => v.name)) →
    orderPhase cs st acc names
      = .ok (acc ++ names.map (fun n => (n, sortedOf cs st n)), st) := by
  intro names
  induction names with
  | nil => intro acc _; simp [orderPhase]
  | cons n rest ih =>
    intro acc hns
    have hs : (lookupVar st n).isSome :=
      lookupVar_isSome_iff.mpr (hns n (List.mem_cons_self _ _))
    obtain ⟨u, hu⟩ := Option.isSome_iff_exists.mp hs
    have hgu : getVar st n = u := by unfold getVar; rw [hu]; rfl
    obtain ⟨sorted, hsorted⟩ := @order_domain_inv (getVar st n) st cs
      hnd hall (by rw [hgu]; exact hall u (lookupVar_mem hu)) hreg
    have hupd : updateVar st (getVar st n) = st := by
      rw [hgu]
      exact updateVar_of_lookup hnd (by rw [lookupVar_name hu]; exact hu)
    have hsOf : sortedOf cs st n = sorted := by
      unfold sortedOf
      rw [hsorted]
    rw [orderPhase, hsorted]
    show orderPhase cs (updateVar st (getVar st n)) (acc ++ [(n, sorted)]) rest
      = Except.ok (acc ++ (n :: rest).map (fun m => (m, sortedOf cs st m)), st)
    rw [hupd, ih (acc ++ [(n, sorted)]) (fun m hm => hns m (List.mem_cons_of_mem _ hm))]
    rw [List.map_cons, hsOf]
    simp

/-- The fold inside `select_unassigned_var` (Python's `min` with a key)
returns the earliest element of minimal domain length: it is a member,
its length is minimal, and it is the first element bearing its length. -/
theorem minFold_spec (vs : List Variable) (v : Variable) :
    (vs.foldl (fun acc w => if w.domain.length < acc.domain.length then w else acc) v)
        ∈ v :: vs ∧
      (∀ w ∈ v :: vs,
        (vs.foldl (fun acc w => if w.domain.length < acc.domain.length then w else acc)
            v).domain.length ≤ w.domain.length) ∧
      (v :: vs).find? (fun w => w.domain.length
          = (vs.foldl (fun acc w => if w.domain.length < acc.domain.length then w else acc)
              v).domain.length)
        = some
          (vs.foldl (fun acc w => if w.domain.length < acc.domain.length then w else acc) v) := by
  induction vs generalizing v with
  | nil =>
    refine ⟨by simp, by simp, ?_⟩
    simp [List.find?_cons_of_pos]
  | cons w ws ih =>
    have step :
        (ws.foldl (fun acc u => if u.domain.length < acc.domain.length then u else acc)
            (if w.domain.length < v.domain.length then w else v))
          = ((w :: ws).foldl
              (fun acc u => if u.domain.length < acc.domain.length then u else acc) v) := by
      simp [List.foldl_cons]
    obtain ⟨hmem, hmin, hfind⟩ := ih (if w.domain.length < v.domain.length then w else v)
    rw [step] at hmem hmin hfind
    set r := ((w :: ws).foldl
      (fun acc u => if u.domain.length < acc.domain.length then u else acc) v) with hr
    by_cases hwv : w.domain.length < v.domain.length
    · simp only [hwv, if_pos] at hmem hmin hfind
      have hrw : r.domain.length ≤ w.domain.length := hmin w (by simp)
      have hrv : r.domain.length ≤ v.domain.length := le_of_lt (lt_of_le_of_lt hrw hwv)
      refine ⟨?_, ?_, ?_⟩
      · rcases List.mem_cons.mp hmem with h | h
        · exact h ▸ (by simp)
        · simp [h]
      · intro u hu
        rcases List.mem_cons.mp hu with h | h
        · exact h ▸ hrv
        · exact hmin u h
      · by_cases hv : v.domain.length = r.domain.length
        · exact absurd hv (by omega)
        · rw [List.find?_cons_of_neg _ (by simpa using hv)]
          exact hfind
    · simp only [hwv, if_neg, if_false] at hmem hmin hfind
      have hvw : v.domain.length ≤ w.domain.length := le_of_not_lt hwv
      have hrv : r.domain.length ≤ v.domain.length := hmin v (by simp)
      refine ⟨?_, ?_, ?_⟩
      · rcases List.mem_cons.mp hmem with h | h
        · exact h ▸ (by simp)
        · simp [h]
      · intro u hu
        rcases List.mem_cons.mp hu with h | h
        · exact h ▸ hrv
        · rcases List.mem_cons.mp h with h' | h'
          · exact h' ▸ le_trans hrv hvw
          · exact hmin u (List.mem_cons_of_mem _ h')
      · by_cases hv : v.domain.length = r.domain.length
        · have : r = v := by
            have := hfind
            rw [List.find?_cons_of_pos _ (by simpa using hv)] at this
            exact (Option.some_injective _ this).symm
          rw [List.find?_cons_of_pos _ (by simpa using hv), this]
        · rw [List.find?_cons_of_neg _ (by simpa using hv)]
          have hw : ¬ w.domain.length = r.domain.length := by omega
          rw [List.find?_cons_of_neg _ (by simpa using hw)]
          rw [List.find?_cons_of_neg _ (by simpa using hv)] at hfind
          exact hfind

/-!
### Claim theorems
-/

/-- Claim C1 (the code violates it): `order_domain` on the pre-assigned
variable `x` of `probC1` returns its domain `[5, 6]` (sorted by the
pruning score), but the hypothetical bindings of the simulation are not
fully reverted: undoing a binding of a variable whose previous value was
not `None` resets its domain to the singleton of that previous value, so
`x` is left with live domain `[5]` instead of `[5, 6]`, contradicting
both the claim and the function's own "non-destructive" docstring. -/
theorem C1_order_domain_leak :
    order_domain ⟨"x", [5, 6], [5, 6], some 5⟩ probC1.var_list probC1.constraints
        = .ok ([5, 6], ⟨"x", [5], [5, 6], some 5⟩) ∧
      ([5] : List Val) ≠ [5, 6] :=
  ⟨rfl, by decide⟩

/-- Claim C2 (counterexample): on a problem with an empty-domain
variable, `get_solution` under the `min_conflicts` algorithm raises
`IndexError` (from `random.choice` on the empty candidate tuple inside
`make_random_assignment`) instead of returning an absent result. -/
theorem C2_min_conflicts_raises :
    (get_solution probC2 "min_conflicts" []).1 = .error .indexError := rfl

/-- Claim C2 (amended): on a problem with distinct variable names, all
variables unassigned, every constraint-referenced name registered, and
some variable's domain empty, `get_solution` under backtracking returns
an absent result without error — the MRV rule selects an empty-domain
variable first and its precomputed value order is empty — while under
min-conflicts the initial random assignment raises `IndexError`
(`random.choice` over the empty candidate tuple) instead of returning an
absent result. -/
theorem C2_empty_domain (csp : CSP) (rng : Rng)
    (hnd : (csp.var_list.map (fun v => v.name)).Nodup)
    (hall : ∀ v ∈ csp.var_list, v.value = none)
    (hempty : ∃ v ∈ csp.var_list, v.domain = [])
    (hreg : ∀ c ∈ csp.constraints, ∀ n ∈ c.var_names,
      n ∈ csp.var_list.map (fun v => v.name)) :
    (get_solution csp "backtracking" rng).1 = .ok (.first none) ∧
      (get_solution csp "min_conflicts" rng).1 = .error .indexError := by
  obtain ⟨v₀, hv₀, hv₀dom⟩ := hempty
  constructor
  · -- the backtracking half
    have hop := orderPhase_inv hnd hall hreg (csp.var_list.map (fun v => v.name)) []
      (fun n hn => hn)
    have hv₀f : v₀ ∈ csp.var_list.filter (fun v => v.value = none) :=
      List.mem_filter.mpr ⟨hv₀, by simp [hall v₀ hv₀]⟩
    rcases hf : csp.var_list.filter (fun v => v.value = none) with _ | ⟨u, us⟩
    · rw [hf] at hv₀f; simp at hv₀f
    · obtain ⟨hmem, hmin, _⟩ := minFold_spec us u
      set sel := us.foldl
        (fun acc w => if w.domain.length < acc.domain.length then w else acc) u
        with hseldef
      have hselmem : sel ∈ csp.var_list := by
        have hm : sel ∈ csp.var_list.filter (fun v => v.value = none) := hf ▸ hmem
        exact (List.mem_filter.mp hm).1
      have hseldom : sel.domain = [] := by
        have h0 : sel.domain.length ≤ v₀.domain.length := hmin v₀ (hf ▸ hv₀f)
        rw [hv₀dom] at h0
        exact List.length_eq_zero.mp (Nat.le_zero.mp (by simpa using h0))
      have hsel : select_unassigned_var csp.var_list = some sel := by
        rw [select_unassigned_var, hf]
      have hallfalse : csp.var_list.all (fun v => v.value.isSome) = false := by
        apply Bool.eq_false_iff.mpr
        intro hc
        have h1 := List.all_eq_true.mp hc v₀ hv₀
        rw [hall v₀ hv₀] at h1
        simp at h1
      have hselname : lookupVar csp.var_list sel.name = some sel :=
        lookupVar_of_mem_nodup hnd hselmem
      have hgsel : getVar csp.var_list sel.name = sel := by
        unfold getVar; rw [hselname]; rfl
      have hsOf : sortedOf csp.constraints csp.var_list sel.name = [] := by
        unfold sortedOf
        rw [hgsel, order_domain_empty hseldom]
      have hselm : sel.name ∈ csp.var_list.map (fun v => v.name) :=
        List.mem_map_of_mem _ hselmem
      have hfind := find?_map_key
        (g := fun n => sortedOf csp.constraints csp.var_list n) hselm
      have hbt : backtracking csp true = .ok (.first none) := by
        rw [backtracking, hop]
        show (match recursive_backtracking csp.constraints
            ([] ++ (csp.var_list.map (fun v => v.name)).map
              (fun n => (n, sortedOf csp.constraints csp.var_list n)))
            true (csp.var_list.length + 1) csp.var_list [] with
          | .error e => (.error e : Except Err Outcome)
          | .ok r => .ok (if true then Outcome.first r.1 else .all r.2.2))
          = .ok (.first none)
        rw [List.nil_append, recursive_backtracking, hallfalse]
        simp only [Bool.false_eq_true, if_false, hsel, hfind, hsOf, Option.map_some',
          try_values, if_true]
      show (solveTracked csp "backtracking" true rng).1 = .ok (.first none)
      show (match backtracking csp true with
        | .ok o => (.ok o : Except SolverError Outcome)
        | .error e => .error (mapEngineError "backtracking" e)) = .ok (.first none)
      rw [hbt]
  · -- the min-conflicts half
    have hv₀name : getVar csp.var_list v₀.name = v₀ := by
      unfold getVar
      rw [lookupVar_of_mem_nodup hnd hv₀]
      rfl
    have hmra := mra_empty_domain (csp.var_list.map (fun v => v.name)) csp.var_list
      [] rng hnd ⟨v₀.name, List.mem_map_of_mem _ hv₀, by rw [hv₀name]; exact hv₀dom⟩
    have hmc : min_conflicts csp true 1000000000 false rng = .error .indexError := by
      rw [min_conflicts, hmra]
    show (solveTracked csp "min_conflicts" true rng).1 = .error .indexError
    show (match min_conflicts csp true 1000000000 false rng with
      | .ok o => (.ok o : Except SolverError Outcome)
      | .error e => .error (mapEngineError "min_conflicts" e)) = .error .indexError
    rw [hmc]
    rfl

/-- Witness for `C2_empty_domain` on `probC2`, whose single variable has
an empty domain. -/
theorem C2_empty_domain_witness :
    ((probC2.var_list.map (fun v => v.name)).Nodup ∧
      (∀ v ∈ probC2.var_list, v.value = none) ∧
      (∃ v ∈ probC2.var_list, v.domain = []) ∧
      (∀ c ∈ probC2.constraints, ∀ n ∈ c.var_names,
        n ∈ probC2.var_list.map (fun v => v.name))) ∧
      ((get_solution probC2 "backtracking" []).1 = .ok (.first none) ∧
        (get_solution probC2 "min_conflicts" []).1 = .error .indexError) :=
  ⟨⟨by decide, by decide, by decide, by simp [probC2]⟩,
    C2_empty_domain probC2 [] (by decide) (by decide) (by decide) (by simp [probC2])⟩

/-- Claim C3 (the code violates it): on a trivially satisfiable problem,
`min_conflicts` with `take_first = false` records the satisfying
assignment of the very first iteration and then crashes with
`ValueError`: with no constraint violated, `select_most_conflicting_var`
computes `max()` over an empty conflict dictionary.  It neither keeps
iterating to the cap nor returns the accumulated solution list. -/
theorem C3_min_conflicts_crash :
    min_conflicts probC3 false 5 false [] = .error .valueError := rfl

/-- Claim C4 (counterexample): in uniqueness mode, when the chosen
least-conflicting value (here `1`) equals the value the variable held
before the step, the displacement pass finds the variable *itself* as
the current holder of the chosen value and immediately reassigns it away
(here to `2`), so after the call the variable does not hold the value
the function chose and returned. -/
theorem C4_uniqueness_self_displacement :
    assign_least_conflicting_value "x" storeC4 [] true []
        = .ok (1, [⟨"x", [2], [1, 2], some 2⟩], []) ∧
      (some (2 : Val)) ≠ some 1 :=
  ⟨rfl, by decide⟩

/-- Claim C4 (amended): when `assign_least_conflicting_value` returns a
chosen value `lc`, that value is a key of the measured conflict table —
hence a member of the variable's initial domain — whose measured
conflict count is minimal over the table, and, provided uniqueness mode
is off or `lc` differs from the value the variable held before the
step, the variable's current value after the call is `lc` (in the
excluded case the variable can be displaced away from `lc` by the
uniqueness pass, as `C4_uniqueness_self_displacement` shows). -/
theorem C4_committed_value (varName : String) (st : Store) (cs : List Constraint)
    (uniq : Bool) (rng : Rng) (lc : Val) (st' : Store) (rng' : Rng) (w : Variable)
    (hnd : (st.map (fun v => v.name)).Nodup)
    (hvar : lookupVar st varName = some w)
    (hres : assign_least_conflicting_value varName st cs uniq rng = .ok (lc, st', rng'))
    (hside : uniq = false ∨ some lc ≠ w.value) :
    (∃ w', lookupVar st' varName = some w' ∧ w'.value = some lc) ∧
      lc ∈ w.init_domain ∧
      (∃ cc st₁ rng₁,
        conflict_table varName cs uniq [] st rng w.init_domain = .ok (cc, st₁, rng₁) ∧
        ∃ cnt, (lc, cnt) ∈ cc ∧ ∀ q ∈ cc, cnt ≤ q.2) := by
  have hgv : getVar st varName = w := by simp [getVar, hvar]
  have hvmem : varName ∈ st.map (fun v => v.name) := by
    rw [← lookupVar_isSome_iff, hvar]; rfl
  unfold assign_least_conflicting_value at hres
  rw [hgv] at hres
  dsimp only [] at hres
  split at hres
  · exact absurd hres (by simp)
  · rename_i t heq_ct
    have hnames1 : t.2.1.map (fun v => v.name) = st.map (fun v => v.name) :=
      conflict_table_names _ _ _ _ heq_ct
    split at hres
    · exact absurd hres (by simp)
    · rename_i p rest heq_cc
      split at hres
      · exact absurd hres (by simp)
      · rename_i r heq_rc
        -- the choice is a minimal-count key of the measured table
        obtain ⟨hminrest, hminhead⟩ := foldl_min_le rest p.2
        have hlc_mem := randChoice_mem heq_rc
        rcases List.mem_map.mp hlc_mem with ⟨q, hqf, hqeq⟩
        have hqcc : q ∈ p :: rest := List.mem_filter.mp hqf |>.1
        have hqmin : q.2 = rest.foldl (fun a q => Nat.min a q.2) p.2 := by
          simpa using (List.mem_filter.mp hqf).2
        have hmin_all : ∀ q' ∈ p :: rest, q.2 ≤ q'.2 := by
          intro q' hq'
          rcases List.mem_cons.mp hq' with h' | h'
          · rw [hqmin, h']; exact hminhead
          · rw [hqmin]; exact hminrest q' h'
        have hkey : (r.1, q.2) ∈ p :: rest := by
          have : q = (r.1, q.2) := by
            rw [← hqeq]
          rw [← this]; exact hqcc
        have hmain2 : r.1 ∈ w.init_domain := by
          rcases conflict_table_keys _ _ _ _ heq_ct (r.1, q.2) (heq_cc ▸ hkey)
            with h' | h'
          · simp at h'
          · exact h'
        have hmain3 :
            ∃ cc st₁ rng₁,
              conflict_table varName cs uniq [] st rng w.init_domain
                = .ok (cc, st₁, rng₁) ∧
              ∃ cnt, (r.1, cnt) ∈ cc ∧ ∀ q' ∈ cc, cnt ≤ q'.2 := by
          refine ⟨t.1, t.2.1, t.2.2, by rw [heq_ct], q.2, heq_cc ▸ hkey, ?_⟩
          intro q' hq'
          exact hmin_all q' (heq_cc ▸ hq')
        -- the state of `varName` after line 284 (reset to the original value)
        have hu0 : ∃ u0, lookupVar t.2.1 varName = some u0 := by
          have : (lookupVar t.2.1 varName).isSome := by
            rw [lookupVar_isSome_iff, hnames1]; exact hvmem
          exact Option.isSome_iff_exists.mp this
        obtain ⟨u0, hu0⟩ := hu0
        obtain ⟨w2, hw2, hw2v⟩ := make_assignment_single_value (v := w.value) hu0
        -- the state of `varName` after line 288 (commit of the chosen value)
        obtain ⟨w3, hw3, hw3v⟩ := make_assignment_single_value (v := some r.1) hw2
        split at hres
        · rename_i wH heq_ow
          split at hres
          · rename_i huniq
            split at hres
            · exact absurd hres (by simp)
            · rename_i s heq_auv
              simp only [Except.ok.injEq, Prod.mk.injEq] at hres
              obtain ⟨hlc, hst', hrng'⟩ := hres
              refine ⟨⟨w3, ?_, by rw [hw3v, hlc]⟩, hlc ▸ hmain2, hlc ▸ hmain3⟩
              rw [← hst']
              rw [assign_unique_value_lookup_ne ?hne heq_auv]
              · exact hw3
              case hne =>
                -- the displaced holder is not `varName` itself
                have hwHv : wH.value = some r.1 := by
                  have := List.find?_some heq_ow
                  simpa using this
                have hwHmem := List.mem_of_find?_eq_some heq_ow
                have hside' : some lc ≠ w.value := by
                  rcases hside with h' | h'
                  · exact absurd huniq (by rw [h']; exact Bool.false_ne_true)
                  · exact h'
                intro hc
                have hnd2 : (((make_assignment t.2.1 [varName] [w.value] none).1).map
                    (fun v => v.name)).Nodup := by
                  rw [make_assignment_names, hnames1]; exact hnd
                have hw2name : w2.name = varName := lookupVar_name hw2
                have heqw : wH = w2 :=
                  mem_name_unique hnd2 hwHmem (lookupVar_mem hw2) (by rw [← hc, hw2name])
                rw [heqw, hw2v] at hwHv
                exact hside' (by rw [← hlc, hwHv])
          · simp only [Except.ok.injEq, Prod.mk.injEq] at hres
            obtain ⟨hlc, hst', hrng'⟩ := hres
            exact ⟨⟨w3, by rw [← hst']; exact hw3, by rw [hw3v, hlc]⟩,
              hlc ▸ hmain2, hlc ▸ hmain3⟩
        · simp only [Except.ok.injEq, Prod.mk.injEq] at hres
          obtain ⟨hlc, hst', hrng'⟩ := hres
          exact ⟨⟨w3, by rw [← hst']; exact hw3, by rw [hw3v, hlc]⟩,
            hlc ▸ hmain2, hlc ▸ hmain3⟩

/-- Witness for `C4_committed_value`: with uniqueness off, on the
single-variable store `storeC4` with no constraints, the step chooses
value `1` and the variable indeed holds `1` afterwards. -/
theorem C4_committed_value_witness :
    ((storeC4.map (fun v => v.name)).Nodup ∧
      lookupVar storeC4 "x" = some ⟨"x", [1], [1, 2], some 1⟩ ∧
      assign_least_conflicting_value "x" storeC4 [] false []
        = .ok (1, [⟨"x", [1], [1, 2], some 1⟩], []) ∧
      (false = false ∨ some (1 : Val) ≠ (⟨"x", [1], [1, 2], some 1⟩ : Variable).value)) ∧
      ((∃ w', lookupVar [(⟨"x", [1], [1, 2], some 1⟩ : Variable)] "x" = some w' ∧
          w'.value = some 1) ∧
        (1 : Val) ∈ [(1 : Val), 2] ∧
        (∃ cc st₁ rng₁,
          conflict_table "x" [] false [] storeC4 [] [1, 2] = .ok (cc, st₁, rng₁) ∧
          ∃ cnt, ((1 : Val), cnt) ∈ cc ∧ ∀ q ∈ cc, cnt ≤ q.2)) :=
  ⟨⟨by decide, rfl, rfl, Or.inl rfl⟩,
    C4_committed_value "x" storeC4 [] false [] 1 [⟨"x", [1], [1, 2], some 1⟩] []
      ⟨"x", [1], [1, 2], some 1⟩ (by decide) rfl rfl (Or.inl rfl)⟩

/-- Claim C5: the backtracking algorithm consults no randomness, so two
solves of the same problem with the same `take_first` but different
random-source states return identical results (first solution and, with
`take_first = false`, the full ordered solution list). -/
theorem C5_backtracking_deterministic (csp : CSP) (takeFirst : Bool)
    (rng₁ rng₂ : Rng) :
    solveTracked csp "backtracking" takeFirst rng₁
      = solveTracked csp "backtracking" takeFirst rng₂ := rfl

/-- Claim C6: whenever some variable is unassigned,
`select_unassigned_var` returns an unassigned variable of the list whose
live-domain size is minimal among all unassigned variables, and it is
the earliest such variable in the declared order: in the (order-
preserving) sublist of unassigned variables, the first entry whose
domain length equals the minimum is the returned variable itself. -/
theorem C6_select_unassigned_var (vl : List Variable)
    (h : ∃ v ∈ vl, v.value = none) :
    ∃ sel, select_unassigned_var vl = some sel ∧ sel ∈ vl ∧ sel.value = none ∧
      (∀ w ∈ vl, w.value = none → sel.domain.length ≤ w.domain.length) ∧
      (vl.filter (fun v => v.value = none)).find?
          (fun w => w.domain.length = sel.domain.length) = some sel := by
  obtain ⟨v, hv, hnone⟩ := h
  have hvf : v ∈ vl.filter (fun v => v.value = none) :=
    List.mem_filter.mpr ⟨hv, by simp [hnone]⟩
  rcases hf : vl.filter (fun v => v.value = none) with _ | ⟨u, us⟩
  · rw [hf] at hvf; exact absurd hvf (by simp)
  · obtain ⟨hmem, hmin, hfind⟩ := minFold_spec us u
    refine ⟨us.foldl (fun acc w => if w.domain.length < acc.domain.length then w else acc) u,
      ?_, ?_, ?_, ?_, ?_⟩
    · simp only [select_unassigned_var, hf]
    · have : _ ∈ vl.filter (fun v => v.value = none) := hf ▸ hmem
      exact (List.mem_filter.mp this).1
    · have : _ ∈ vl.filter (fun v => v.value = none) := hf ▸ hmem
      have := (List.mem_filter.mp this).2
      simpa using this
    · intro w hw hwnone
      have : w ∈ vl.filter (fun v => v.value = none) :=
        List.mem_filter.mpr ⟨hw, by simp [hwnone]⟩
      rw [hf] at this
      exact hmin w this
    · rw [hf]
      exact hfind

/-- Witness for `C6_select_unassigned_var` on a two-variable problem in
which the later variable `b` has the smaller domain. -/
theorem C6_select_unassigned_var_witness :
    (∃ v ∈ [(⟨"a", [1, 2], [1, 2], none⟩ : Variable), ⟨"b", [3], [3], none⟩],
        v.value = none) ∧
      (∃ sel,
        select_unassigned_var
            [(⟨"a", [1, 2], [1, 2], none⟩ : Variable), ⟨"b", [3], [3], none⟩]
          = some sel ∧
        sel ∈ [(⟨"a", [1, 2], [1, 2], none⟩ : Variable), ⟨"b", [3], [3], none⟩] ∧
        sel.value = none ∧
        (∀ w ∈ [(⟨"a", [1, 2], [1, 2], none⟩ : Variable), ⟨"b", [3], [3], none⟩],
          w.value = none → sel.domain.length ≤ w.domain.length) ∧
        ([(⟨"a", [1, 2], [1, 2], none⟩ : Variable), ⟨"b", [3], [3], none⟩].filter
            (fun v => v.value = none)).find?
            (fun w => w.domain.length = sel.domain.length) = some sel) :=
  ⟨by decide, C6_select_unassigned_var _ (by decide)⟩

/-- Claim C7: every solve (single- or all-solutions, any algorithm name)
operates on a deep copy severed from the original problem, so the
original — every variable's value, domain and initial-domain snapshot,
and the constraint list — is returned exactly as it was. -/
theorem C7_solve_preserves_problem (csp : CSP) (alg : String) (rng : Rng) :
    (get_solution csp alg rng).2 = csp ∧ (get_all_solutions csp alg rng).2 = csp :=
  ⟨rfl, rfl⟩

/-- Claim C8 (the code violates it): `add_constraint` appends a
constraint referencing the unregistered name `ghost` without any check
(it cannot raise), and the failure surfaces only later, as the masked
lookup error of a subsequent solve. -/
theorem C8_add_constraint_no_validation :
    (add_constraint probC8 ghostConstraint).constraints.map (fun c => c.var_names)
        = [["x", "ghost"]] ∧
      "ghost" ∉ probC8.var_list.map (fun v => v.name) ∧
      (get_solution (add_constraint probC8 ghostConstraint) "backtracking" []).1
        = .error (.notImplemented "backtracking") :=
  ⟨rfl, by decide, rfl⟩

/-- Claim C9: any algorithm name other than `"backtracking"` and
`"min_conflicts"` makes `solve` raise the configuration error
immediately; no engine runs and the problem is returned untouched. -/
theorem C9_unknown_algorithm (csp : CSP) (takeFirst : Bool) (rng : Rng)
    (alg : String) (h₁ : alg ≠ "backtracking") (h₂ : alg ≠ "min_conflicts") :
    solveTracked csp alg takeFirst rng = (.error (.notImplemented alg), csp) := by
  simp [solveTracked, h₁, h₂]

/-- Witness for `C9_unknown_algorithm` at the concrete name `"dfs"`. -/
theorem C9_unknown_algorithm_witness :
    ("dfs" ≠ "backtracking") ∧ ("dfs" ≠ "min_conflicts") ∧
      solveTracked ⟨[], []⟩ "dfs" true []
        = (.error (.notImplemented "dfs"), (⟨[], []⟩ : CSP)) :=
  ⟨by decide, by decide,
    C9_unknown_algorithm ⟨[], []⟩ true [] "dfs" (by decide) (by decide)⟩

/-- Claim C10: on `probC10` (valid algorithm name, malformed
constraint), the `KeyError` raised by the `var_dict` lookup of `ghost`
deep inside the consistency check is caught by `solve`'s
`except KeyError` clause and re-raised as the very configuration error
(`NotImplementedError`, here carrying the algorithm name
`"backtracking"`) used for unknown algorithm names. -/
theorem C10_malformed_constraint_masked :
    (get_solution probC10 "backtracking" []).1
      = .error (.notImplemented "backtracking") := rfl

end CSPy
